import Mathlib

/-!
Verification of the `ArithmeticExtensionGate` from
`src/plonky2/src/gates/arithmetic_extension.rs`.

The gate performs, for each of its `num_ops` packed operations, the weighted
multiply-add `output = const_0 * multiplicand_0 * multiplicand_1 + const_1 * addend`
over a degree-`D` extension of the base field `F`.

Shallow-embedding conventions:
* A machine `usize` is a `ℕ`.
* `Range<usize>` becomes `WRange` (start inclusive, stop exclusive).
* An extension element (`F::Extension`, `ExtensionAlgebra`) is its coordinate
  vector `Fin D → R`; `from_basefield_array` / `to_basefield_array` are then the
  identity, addition/subtraction/`scalar_mul` are componentwise (as in the
  `plonky2_field` array representations), and the ring multiplication is
  `extMul` below, modelled from the spec since the field crate is external.
* Slice indexing `slice[i]`, which panics when out of bounds, becomes
  `List.get?` inside the `Option` monad, so a panic is `none`.
* A trace row (`local_wires`) is a total function `ℕ → R` from wire column to
  value, matching the fixed-width row arrays used by the callers.
-/

namespace Plonky2

/-- Rust `Range<usize>` (`start..stop`, half-open). -/
structure WRange where
  start : ℕ
  stop : ℕ
deriving DecidableEq

/-- Membership of a wire column in a half-open range. -/
def WRange.memR (n : ℕ) (r : WRange) : Prop := r.start ≤ n ∧ n < r.stop

instance (n : ℕ) (r : WRange) : Decidable (WRange.memR n r) := by
  unfold WRange.memR; infer_instance

/-- Iterating a Rust range yields `start, start+1, …, stop-1`. -/
def WRange.toList (r : WRange) : List ℕ :=
  (List.range (r.stop - r.start)).map (fun j => r.start + j)

/-- `iop::target::Target::Wire`: a (row, column) wire coordinate. -/
structure Target where
  row : ℕ
  col : ℕ
deriving DecidableEq

/-- `Target::wire(row, column)`. -/
def Target.wire (row col : ℕ) : Target := ⟨row, col⟩

/-- The gate: `pub struct ArithmeticExtensionGate<const D: usize> { pub num_ops: usize }`.
The extension degree `D` is a const generic in Rust; here it is passed to each
operation explicitly. The single field is public, so any `num_ops` value can be
used to build a gate; no constructor validates it. -/
structure ArithmeticExtensionGate where
  num_ops : ℕ
deriving DecidableEq

namespace ArithmeticExtensionGate

/-- `wires_ith_multiplicand_0`: `4*D*i..4*D*i + D`. -/
def wires_ith_multiplicand_0 (D i : ℕ) : WRange := ⟨4*D*i, 4*D*i + D⟩

/-- `wires_ith_multiplicand_1`: `4*D*i + D..4*D*i + 2*D`. -/
def wires_ith_multiplicand_1 (D i : ℕ) : WRange := ⟨4*D*i + D, 4*D*i + 2*D⟩

/-- `wires_ith_addend`: `4*D*i + 2*D..4*D*i + 3*D`. -/
def wires_ith_addend (D i : ℕ) : WRange := ⟨4*D*i + 2*D, 4*D*i + 3*D⟩

/-- `wires_ith_output`: `4*D*i + 3*D..4*D*i + 4*D`. -/
def wires_ith_output (D i : ℕ) : WRange := ⟨4*D*i + 3*D, 4*D*i + 4*D⟩

/-- `fn num_wires(&self) -> usize { self.num_ops * 4 * D }`. -/
def num_wires (D : ℕ) (g : ArithmeticExtensionGate) : ℕ := g.num_ops * 4 * D

/-- `fn num_constants(&self) -> usize { 2 }`. -/
def num_constants (_g : ArithmeticExtensionGate) : ℕ := 2

/-- `fn degree(&self) -> usize { 3 }`. -/
def gate_degree (_g : ArithmeticExtensionGate) : ℕ := 3

/-- `fn num_constraints(&self) -> usize { self.num_ops * D }`. -/
def num_constraints (D : ℕ) (g : ArithmeticExtensionGate) : ℕ := g.num_ops * D

end ArithmeticExtensionGate

section ExtensionAlgebra

variable {R : Type*} [CommRing R]

/-- Componentwise `scalar_mul` of a degree-`D` coordinate vector by a ring
element, as in `plonky2_field`'s `QuadraticExtension`/`ExtensionAlgebra`
`scalar_mul` (external crate). -/
def scalar_mul {D : ℕ} (c : R) (a : Fin D → R) : Fin D → R := fun j => c * a j

/-- Componentwise addition of coordinate vectors. -/
def extAdd {D : ℕ} (a b : Fin D → R) : Fin D → R := fun j => a j + b j

/-- Componentwise subtraction of coordinate vectors. -/
def extSub {D : ℕ} (a b : Fin D → R) : Fin D → R := fun j => a j - b j

/-- Modelled from the spec: the degree-`D` extension ("algebra") multiplication
is polynomial multiplication of coordinate vectors reduced modulo the defining
polynomial `X^D - w`; the field/extension crate implementing it is external to
this repository.  Coordinate `k` of the product collects every `a i * b j` with
`(i + j) % D = k`, weighted by `w` whenever `i + j ≥ D` (one reduction step). -/
def extMul {D : ℕ} (w : R) (a b : Fin D → R) : Fin D → R :=
  fun k => ∑ i : Fin D, ∑ j : Fin D,
    if (i.1 + j.1) % D = k.1 then
      (if i.1 + j.1 < D then a i * b j else w * (a i * b j))
    else 0

/-- `EvaluationVars::get_local_ext_algebra(range)`: pack the `D` consecutive
wire values of `range` into an extension-algebra coordinate vector. -/
def get_local_ext_algebra (D : ℕ) (local_wires : ℕ → R) (r : WRange) : Fin D → R :=
  fun j => local_wires (r.start + j.1)

/-- `EvaluationVarsBase::get_local_ext(range)`: pack `D` consecutive base-field
wire values into an `F::Extension` coordinate vector. -/
def get_local_ext (D : ℕ) (local_wires : ℕ → R) (r : WRange) : Fin D → R :=
  fun j => local_wires (r.start + j.1)

end ExtensionAlgebra

namespace ArithmeticExtensionGate

variable {R : Type*} [CommRing R]

/-- `fn eval_unfiltered(&self, vars) -> Vec<F::Extension>`.  `w` is the image in
the coefficient ring of the extension's defining constant `W` (the
`ExtensionAlgebra` multiplication uses `F::from_basefield(F::W)`).  The wires of
`EvaluationVars` are themselves extension elements, so the coefficient ring `R`
here plays the role of `F::Extension`. -/
def eval_unfiltered (D : ℕ) (w : R) (g : ArithmeticExtensionGate)
    (local_constants : List R) (local_wires : ℕ → R) : Option (List R) := do
  let const_0 ← local_constants.get? 0
  let const_1 ← local_constants.get? 1
  pure ((List.range g.num_ops).flatMap (fun i =>
    let multiplicand_0 := get_local_ext_algebra D local_wires (wires_ith_multiplicand_0 D i)
    let multiplicand_1 := get_local_ext_algebra D local_wires (wires_ith_multiplicand_1 D i)
    let addend := get_local_ext_algebra D local_wires (wires_ith_addend D i)
    let output := get_local_ext_algebra D local_wires (wires_ith_output D i)
    let computed_output :=
      extAdd (scalar_mul const_0 (extMul w multiplicand_0 multiplicand_1))
        (scalar_mul const_1 addend)
    List.ofFn (fun j : Fin D => extSub output computed_output j)))

/-- `fn eval_unfiltered_base_one(&self, vars, yield_constr)`.  The
`StridedConstraintConsumer` sink is modelled as the ordered list of values
yielded through `yield_constr.many`; the wires are base-field values and the
algebra is `F::Extension` with defining constant `w : F`. -/
def eval_unfiltered_base_one (D : ℕ) (w : R) (g : ArithmeticExtensionGate)
    (local_constants : List R) (local_wires : ℕ → R) : Option (List R) := do
  let const_0 ← local_constants.get? 0
  let const_1 ← local_constants.get? 1
  pure ((List.range g.num_ops).flatMap (fun i =>
    let multiplicand_0 := get_local_ext D local_wires (wires_ith_multiplicand_0 D i)
    let multiplicand_1 := get_local_ext D local_wires (wires_ith_multiplicand_1 D i)
    let addend := get_local_ext D local_wires (wires_ith_addend D i)
    let output := get_local_ext D local_wires (wires_ith_output D i)
    let computed_output :=
      extAdd (scalar_mul const_0 (extMul w multiplicand_0 multiplicand_1))
        (scalar_mul const_1 addend)
    List.ofFn (fun j : Fin D => extSub output computed_output j)))

end ArithmeticExtensionGate

/-- `pub(crate) struct ArithmeticExtensionGenerator<F, const D: usize>`:
the captured-by-value parameter snapshot of one packed operation. -/
structure ArithmeticExtensionGenerator (F : Type*) where
  row : ℕ
  const_0 : F
  const_1 : F
  i : ℕ
deriving DecidableEq

namespace ArithmeticExtensionGate

variable {F : Type*} [CommRing F]

/-- `fn generators(&self, row, local_constants) -> Vec<WitnessGeneratorRef>`.
The slice accesses `local_constants[0]` / `local_constants[1]` happen inside
the per-operation closure, so with `num_ops = 0` no constant is read. -/
def generators (_D : ℕ) (g : ArithmeticExtensionGate) (row : ℕ)
    (local_constants : List F) : Option (List (ArithmeticExtensionGenerator F)) :=
  (List.range g.num_ops).mapM (fun i => do
    let const_0 ← local_constants.get? 0
    let const_1 ← local_constants.get? 1
    pure (⟨row, const_0, const_1, i⟩ : ArithmeticExtensionGenerator F))

end ArithmeticExtensionGate

namespace ArithmeticExtensionGenerator

variable {F : Type*} [CommRing F]

/-- `fn dependencies(&self) -> Vec<Target>`: the three input ranges of
operation `i`, chained and mapped to wires of row `self.row`. -/
def dependencies (D : ℕ) (gen : ArithmeticExtensionGenerator F) : List Target :=
  (((ArithmeticExtensionGate.wires_ith_multiplicand_0 D gen.i).toList
      ++ (ArithmeticExtensionGate.wires_ith_multiplicand_1 D gen.i).toList)
      ++ (ArithmeticExtensionGate.wires_ith_addend D gen.i).toList).map
    (fun c => Target.wire gen.row c)

/-- `Witness::get_extension_target(ExtensionTarget::from_range(row, range))`:
read the `D` wires of `range` at `row` from a partial witness; `none` when any
of them is unassigned (the resolver treats that as a hard error). -/
def get_extension_target (D : ℕ) (witness : Target → Option F) (row : ℕ)
    (r : WRange) : Option (Fin D → F) :=
  if h : ∀ j : Fin D, (witness (Target.wire row (r.start + j.1))).isSome then
    some (fun j => (witness (Target.wire row (r.start + j.1))).get (h j))
  else
    none

/-- `GeneratedValues::set_extension_target`: the buffered writes produced for
the `D` wires of `range` at `row`. -/
def set_extension_target (D : ℕ) (row : ℕ) (r : WRange) (v : Fin D → F) :
    List (Target × F) :=
  List.ofFn (fun j : Fin D => (Target.wire row (r.start + j.1), v j))

/-- `fn run_once(&self, witness, out_buffer)`: read the three operands of
operation `i`, compute `c0 * m0 * m1 + c1 * addend` in the extension, and emit
the writes for the output wires into the staging buffer. -/
def run_once (D : ℕ) (w : F) (gen : ArithmeticExtensionGenerator F)
    (witness : Target → Option F) : Option (List (Target × F)) := do
  let multiplicand_0 ← get_extension_target D witness gen.row
    (ArithmeticExtensionGate.wires_ith_multiplicand_0 D gen.i)
  let multiplicand_1 ← get_extension_target D witness gen.row
    (ArithmeticExtensionGate.wires_ith_multiplicand_1 D gen.i)
  let addend ← get_extension_target D witness gen.row
    (ArithmeticExtensionGate.wires_ith_addend D gen.i)
  let computed_output :=
    extAdd (scalar_mul gen.const_0 (extMul w multiplicand_0 multiplicand_1))
      (scalar_mul gen.const_1 addend)
  pure (set_extension_target D gen.row
    (ArithmeticExtensionGate.wires_ith_output D gen.i) computed_output)

end ArithmeticExtensionGenerator

section Resolver

variable {F : Type*} [CommRing F]

/-- Modelled from the spec (§4.4, external dependency resolver): committing a
staging buffer publishes each written wire into the witness. -/
def commit (writes : List (Target × F)) (witness : Target → Option F) :
    Target → Option F :=
  match writes with
  | [] => witness
  | (t, v) :: rest => fun u => if u = t then some v else commit rest witness u

/-- Modelled from the spec (§4.4, external dependency resolver): run the given
generators in order, committing each staging buffer before the next runs; fails
if any generator reads an unassigned wire. -/
def run_generators (D : ℕ) (w : F) (gens : List (ArithmeticExtensionGenerator F))
    (witness : Target → Option F) : Option (Target → Option F) :=
  match gens with
  | [] => some witness
  | gen :: rest => do
    let writes ← gen.run_once D w witness
    run_generators D w rest (commit writes witness)

end Resolver

section Serialization

/-- Modelled from the spec (§6, external serialization codec): the byte stream
is self-describing (length-prefixed integers, fixed-width field elements), so it
is modelled as a list of typed items; mismatched reads fail cleanly. -/
inductive SerItem (F : Type*) where
  | usizeItem : ℕ → SerItem F
  | fieldItem : F → SerItem F
deriving DecidableEq

variable {F : Type*}

/-- `Buffer`/`Vec<u8>` destination, at the item granularity of the codec. -/
abbrev SerBuffer (F : Type*) := List (SerItem F)

/-- `dst.write_usize(n)`. -/
def write_usize (dst : SerBuffer F) (n : ℕ) : SerBuffer F :=
  dst ++ [SerItem.usizeItem n]

/-- `dst.write_field(x)`. -/
def write_field (dst : SerBuffer F) (x : F) : SerBuffer F :=
  dst ++ [SerItem.fieldItem x]

/-- `src.read_usize()`: fails (decode error) unless the next item is a usize. -/
def read_usize (src : SerBuffer F) : Option (ℕ × SerBuffer F) :=
  match src with
  | SerItem.usizeItem n :: rest => some (n, rest)
  | _ => none

/-- `src.read_field()`: fails unless the next item is a field element. -/
def read_field (src : SerBuffer F) : Option (F × SerBuffer F) :=
  match src with
  | SerItem.fieldItem x :: rest => some (x, rest)
  | _ => none

/-- `Gate::serialize`: `dst.write_usize(self.num_ops)`; `common_data` unused. -/
def ArithmeticExtensionGate.serialize (g : ArithmeticExtensionGate)
    (dst : SerBuffer F) : SerBuffer F :=
  write_usize dst g.num_ops

/-- `Gate::deserialize`: `let num_ops = src.read_usize()?; Ok(Self { num_ops })`. -/
def ArithmeticExtensionGate.deserialize (src : SerBuffer F) :
    Option (ArithmeticExtensionGate × SerBuffer F) :=
  (read_usize src).map (fun p => (⟨p.1⟩, p.2))

/-- `SimpleGenerator::serialize`: row, const_0, const_1, i in order. -/
def ArithmeticExtensionGenerator.serialize (gen : ArithmeticExtensionGenerator F)
    (dst : SerBuffer F) : SerBuffer F :=
  write_usize (write_field (write_field (write_usize dst gen.row) gen.const_0) gen.const_1) gen.i

/-- `SimpleGenerator::deserialize`: read row, const_0, const_1, i in order. -/
def ArithmeticExtensionGenerator.deserialize (src : SerBuffer F) :
    Option (ArithmeticExtensionGenerator F × SerBuffer F) := do
  let (row, src) ← read_usize src
  let (const_0, src) ← read_field src
  let (const_1, src) ← read_field src
  let (i, src) ← read_usize src
  pure (⟨row, const_0, const_1, i⟩, src)

end Serialization

/-- The part of `CircuitConfig` the gate reads (external struct; only
`num_routed_wires` is consulted by this gate). -/
structure CircuitConfig where
  num_routed_wires : ℕ
deriving DecidableEq

namespace ArithmeticExtensionGate

/-- `fn num_ops(config) -> usize { config.num_routed_wires / (4 * D) }`
(`wires_per_op = 4 * D`). -/
def num_ops_from_config (D : ℕ) (config : CircuitConfig) : ℕ :=
  config.num_routed_wires / (4 * D)

/-- `fn new_from_config(config) -> Self`: infallible; silently takes the floor
of the wire budget rather than rejecting anything. -/
def new_from_config (D : ℕ) (config : CircuitConfig) : ArithmeticExtensionGate :=
  ⟨num_ops_from_config D config⟩

end ArithmeticExtensionGate

section Circuit

/-- Terms of extension-algebra type produced while `eval_unfiltered_circuit`
drives the external `CircuitBuilder`.  One constructor per builder operation the
gate invokes; `getLocalAlg` is a packed group of `D` input targets, carrying
(for evaluation) the extension values later assigned to those targets, and the
scalar arguments carry the values assigned to the corresponding
`local_constants` targets. -/
inductive AlgExpr (K : Type*) (D : ℕ) where
  | getLocalAlg (v : Fin D → K)
  | mulExtAlgebra (a b : AlgExpr K D)
  | scalarMulExtAlgebra (c : K) (a : AlgExpr K D)
  | scalarMulAddExtAlgebra (c : K) (a b : AlgExpr K D)
  | subExtAlgebra (a b : AlgExpr K D)

variable {K : Type*} [CommRing K]

/-- Modelled from the spec (§4.2): evaluating the circuit emitted by each
builder operation, with the inputs assigned, yields the corresponding
extension-algebra operation (`mul_ext_algebra` multiplies in the algebra,
`scalar_mul_ext_algebra c a = c * a`, `scalar_mul_add_ext_algebra c a b =
c * a + b`, `sub_ext_algebra` subtracts); the builder itself is external. -/
def evalAlgExpr {D : ℕ} (w : K) : AlgExpr K D → (Fin D → K)
  | .getLocalAlg v => v
  | .mulExtAlgebra a b => extMul w (evalAlgExpr w a) (evalAlgExpr w b)
  | .scalarMulExtAlgebra c a => scalar_mul c (evalAlgExpr w a)
  | .scalarMulAddExtAlgebra c a b => extAdd (scalar_mul c (evalAlgExpr w a)) (evalAlgExpr w b)
  | .subExtAlgebra a b => extSub (evalAlgExpr w a) (evalAlgExpr w b)

/-- `fn eval_unfiltered_circuit(&self, builder, vars) -> Vec<ExtensionTarget<D>>`.
The returned list contains, for each operation, the `D` coordinate targets of
`diff.to_ext_target_array()`, represented as the built term paired with the
coordinate index. -/
def ArithmeticExtensionGate.eval_unfiltered_circuit (D : ℕ)
    (g : ArithmeticExtensionGate) (local_constants : List K)
    (local_wires : ℕ → K) : Option (List (AlgExpr K D × Fin D)) := do
  let const_0 ← local_constants.get? 0
  let const_1 ← local_constants.get? 1
  pure ((List.range g.num_ops).flatMap (fun i =>
    let multiplicand_0 := AlgExpr.getLocalAlg
      (get_local_ext_algebra D local_wires (ArithmeticExtensionGate.wires_ith_multiplicand_0 D i))
    let multiplicand_1 := AlgExpr.getLocalAlg
      (get_local_ext_algebra D local_wires (ArithmeticExtensionGate.wires_ith_multiplicand_1 D i))
    let addend := AlgExpr.getLocalAlg
      (get_local_ext_algebra D local_wires (ArithmeticExtensionGate.wires_ith_addend D i))
    let output := AlgExpr.getLocalAlg
      (get_local_ext_algebra D local_wires (ArithmeticExtensionGate.wires_ith_output D i))
    let mul := AlgExpr.mulExtAlgebra multiplicand_0 multiplicand_1
    let scaled_mul := AlgExpr.scalarMulExtAlgebra const_0 mul
    let computed_output := AlgExpr.scalarMulAddExtAlgebra const_1 addend scaled_mul
    let diff := AlgExpr.subExtAlgebra output computed_output
    List.ofFn (fun j : Fin D => (diff, j))))

end Circuit

/-- The four operand roles of one packed operation, in slot order. -/
inductive OpRole where
  | multiplicand0
  | multiplicand1
  | addendRole
  | outputRole
deriving DecidableEq

/-- The fixed slot index of each role (0, 1, 2, 3). -/
def OpRole.slot : OpRole → ℕ
  | .multiplicand0 => 0
  | .multiplicand1 => 1
  | .addendRole => 2
  | .outputRole => 3

/-- The wire range the gate assigns to role `r` of operation `i`. -/
def OpRole.wiresOf (D i : ℕ) : OpRole → WRange
  | .multiplicand0 => ArithmeticExtensionGate.wires_ith_multiplicand_0 D i
  | .multiplicand1 => ArithmeticExtensionGate.wires_ith_multiplicand_1 D i
  | .addendRole => ArithmeticExtensionGate.wires_ith_addend D i
  | .outputRole => ArithmeticExtensionGate.wires_ith_output D i

section TemplateExport

/-- Modelled from the spec (external Rust std): `str::replace` substitutes every
non-overlapping occurrence of `pat`, scanning left to right, and never rescans
the inserted replacement text.  The fuel argument bounds the recursion by the
length of the scanned text, which suffices since every step consumes at least
one character. -/
def replaceAllFuel (pat rep : List Char) : ℕ → List Char → List Char
  | _, [] => []
  | 0, c :: s => c :: s
  | fuel + 1, c :: s =>
    if pat.isPrefixOf (c :: s) then
      rep ++ replaceAllFuel pat rep fuel (List.drop (pat.length - 1) s)
    else
      c :: replaceAllFuel pat rep fuel s

/-- Rust `str::replace(pat, rep)` on character lists. -/
def replaceAll (pat rep s : List Char) : List Char :=
  replaceAllFuel pat rep s.length s

/-- The circom template string of `export_circom_verification_code`, after
`format!` unescapes the doubled braces. -/
def circomTemplate : String :=
  "template ArithmeticExtension$NUM_OPS() \x7b
  signal input constants[NUM_OPENINGS_CONSTANTS()][2];
  signal input wires[NUM_OPENINGS_WIRES()][2];
  signal input public_input_hash[4];
  signal input constraints[NUM_GATE_CONSTRAINTS()][2];
  signal output out[NUM_GATE_CONSTRAINTS()][2];

  signal filter[2];
  $SET_FILTER;

  signal m[$NUM_OPS][2][2];
  for (var i = 0; i < $NUM_OPS; i++) \x7b
    m[i] <== WiresAlgebraMul(4 * $D * i, 4 * $D * i + $D)(wires);
    for (var j = 0; j < $D; j++) \x7b
      out[i * $D + j] <== ConstraintPush()(constraints[i * $D + j], filter, GlExtSub()(wires[4 * $D * i + 3 * $D + j], GlExtAdd()(GlExtMul()(m[i][j], constants[$NUM_SELECTORS]), GlExtMul()(wires[4 * $D * i + 2 * $D + j], constants[$NUM_SELECTORS + 1]))));
    \x7d
  \x7d

  for (var i = $NUM_OPS * $D; i < NUM_GATE_CONSTRAINTS(); i++) \x7b
    out[i] <== constraints[i];
  \x7d
\x7d"

/-- The solidity template string of `export_solidity_verification_code`, after
`format!` unescapes the doubled braces. -/
def solidityTemplate : String :=
  "library ArithmeticExtension$NUM_OPSLib \x7b
    using GoldilocksExtLib for uint64[2];
    function set_filter(GatesUtilsLib.EvaluationVars memory ev) internal pure \x7b
        $SET_FILTER;
    \x7d
    function eval(GatesUtilsLib.EvaluationVars memory ev, uint64[2][$NUM_GATE_CONSTRAINTS] memory constraints) internal pure \x7b
        for (uint32 i = 0; i < $NUM_OPS; i++) \x7b
            uint64[2][$D] memory m = GatesUtilsLib.wires_algebra_mul(ev.wires, 4 * $D * i, 4 * $D * i + $D);
            for (uint32 j = 0; j < $D; j++) \x7b
                GatesUtilsLib.push(constraints, ev.filter, i * $D + j, ev.wires[4 * $D * i + 3 * $D + j].sub(m[j].mul(ev.constants[$NUM_SELECTORS]).add(ev.wires[4 * $D * i + 2 * $D + j].mul(ev.constants[$NUM_SELECTORS + 1]))));
            \x7d
        \x7d
    \x7d
\x7d"

/-- The solidity template up to its first `$NUM_OPS` occurrence. -/
def solSeg0 : String := "library ArithmeticExtension"

/-- The solidity template between its two `$NUM_OPS` occurrences. -/
def solSeg1 : String := "Lib \x7b\n    using GoldilocksExtLib for uint64[2];\n    function set_filter(GatesUtilsLib.EvaluationVars memory ev) internal pure \x7b\n        $SET_FILTER;\n    \x7d\n    function eval(GatesUtilsLib.EvaluationVars memory ev, uint64[2][$NUM_GATE_CONSTRAINTS] memory constraints) internal pure \x7b\n        for (uint32 i = 0; i < "

/-- The solidity template after its second `$NUM_OPS` occurrence. -/
def solSeg2 : String := "; i++) \x7b\n            uint64[2][$D] memory m = GatesUtilsLib.wires_algebra_mul(ev.wires, 4 * $D * i, 4 * $D * i + $D);\n            for (uint32 j = 0; j < $D; j++) \x7b\n                GatesUtilsLib.push(constraints, ev.filter, i * $D + j, ev.wires[4 * $D * i + 3 * $D + j].sub(m[j].mul(ev.constants[$NUM_SELECTORS]).add(ev.wires[4 * $D * i + 2 * $D + j].mul(ev.constants[$NUM_SELECTORS + 1]))));\n            \x7d\n        \x7d\n    \x7d\n\x7d"

/-- `solSeg2` up to its first `$D` occurrence. -/
def solSeg2a : String := "; i++) \x7b\n            uint64[2]["

/-- `solSeg2` after its first `$D` occurrence. -/
def solSeg2b : String := "] memory m = GatesUtilsLib.wires_algebra_mul(ev.wires, 4 * $D * i, 4 * $D * i + $D);\n            for (uint32 j = 0; j < $D; j++) \x7b\n                GatesUtilsLib.push(constraints, ev.filter, i * $D + j, ev.wires[4 * $D * i + 3 * $D + j].sub(m[j].mul(ev.constants[$NUM_SELECTORS]).add(ev.wires[4 * $D * i + 2 * $D + j].mul(ev.constants[$NUM_SELECTORS + 1]))));\n            \x7d\n        \x7d\n    \x7d\n\x7d"

/-- `fn export_circom_verification_code(&self) -> String`: replace every
`$NUM_OPS` with the decimal `num_ops`, then every `$D` with the decimal `D`. -/
def ArithmeticExtensionGate.export_circom_verification_code (D : ℕ)
    (g : ArithmeticExtensionGate) : String :=
  String.mk (replaceAll ("$D".toList) ((toString D).toList)
    (replaceAll ("$NUM_OPS".toList) ((toString g.num_ops).toList) circomTemplate.toList))

/-- `fn export_solidity_verification_code(&self) -> String`: replace every
`$NUM_OPS` with the decimal `num_ops`; no other placeholder is touched. -/
def ArithmeticExtensionGate.export_solidity_verification_code
    (g : ArithmeticExtensionGate) : String :=
  String.mk (replaceAll ("$NUM_OPS".toList) ((toString g.num_ops).toList)
    solidityTemplate.toList)

end TemplateExport

/-- The Goldilocks prime `2^64 - 2^32 + 1`, the base field used by the
repository's tests (`GoldilocksField`). -/
def goldilocksP : ℕ := 18446744069414584321

/-- The Goldilocks base field, used for concrete witnesses. -/
abbrev GF := ZMod goldilocksP

/-! ## Helper lemmas -/

/-- Decomposition `E * q + r` with `r < E` is unique. -/
theorem interval_decomp_unique {E i a j b : ℕ} (hE : 0 < E) (ha : a < E) (hb : b < E)
    (h : E * i + a = E * j + b) : i = j ∧ a = b := by
  constructor
  · have h1 : (E * i + a) / E = i := by
      rw [Nat.mul_add_div hE, Nat.div_eq_of_lt ha, Nat.add_zero]
    have h2 : (E * j + b) / E = j := by
      rw [Nat.mul_add_div hE, Nat.div_eq_of_lt hb, Nat.add_zero]
    rw [← h1, ← h2, h]
  · have h1 : (E * i + a) % E = a := by rw [Nat.mul_add_mod, Nat.mod_eq_of_lt ha]
    have h2 : (E * j + b) % E = b := by rw [Nat.mul_add_mod, Nat.mod_eq_of_lt hb]
    rw [← h1, ← h2, h]

/-- Start and stop of each role range, in `D * (4*i + slot)` form. -/
theorem OpRole.wiresOf_start_stop (D i : ℕ) (r : OpRole) :
    (OpRole.wiresOf D i r).start = D * (4*i + r.slot) ∧
    (OpRole.wiresOf D i r).stop = D * (4*i + r.slot) + D := by
  cases r <;>
    simp only [OpRole.wiresOf, OpRole.slot,
      ArithmeticExtensionGate.wires_ith_multiplicand_0,
      ArithmeticExtensionGate.wires_ith_multiplicand_1,
      ArithmeticExtensionGate.wires_ith_addend,
      ArithmeticExtensionGate.wires_ith_output] <;>
    constructor <;> ring

/-- Membership in a role range, in quotient/remainder form. -/
theorem memR_wiresOf {D i c : ℕ} {r : OpRole} :
    WRange.memR c (OpRole.wiresOf D i r) ↔ ∃ a, a < D ∧ c = D * (4*i + r.slot) + a := by
  obtain ⟨h1, h2⟩ := OpRole.wiresOf_start_stop D i r
  unfold WRange.memR
  rw [h1, h2]
  constructor
  · rintro ⟨ha, hb⟩
    exact ⟨c - D * (4*i + r.slot), by omega, by omega⟩
  · rintro ⟨a, ha, rfl⟩
    omega

/-- Slot indices determine the role. -/
theorem OpRole.slot_injective : Function.Injective OpRole.slot := by
  intro r r' h
  cases r <;> cases r' <;> simp_all [OpRole.slot]

/-! ## C4: serialization round-trip -/

/-- C4: For every gate instance `g` and every generator instance,
deserializing the serialization (against any common-data context, which both
directions ignore) returns the identical instance — same `num_ops` for the
gate; same `row`, `const_0`, `const_1` and `i` for the generator — and
consumes exactly the written items, leaving any trailing buffer content. -/
theorem gate_and_generator_serialization_roundtrip {F : Type*}
    (g : ArithmeticExtensionGate) (gen : ArithmeticExtensionGenerator F)
    (rest : SerBuffer F) :
    ArithmeticExtensionGate.deserialize (g.serialize ([] : SerBuffer F) ++ rest)
        = some (g, rest) ∧
    ArithmeticExtensionGenerator.deserialize (gen.serialize ([] : SerBuffer F) ++ rest)
        = some (gen, rest) := by
  constructor
  · rfl
  · rfl

/-! ## C8: wire-budget behaviour of construction -/

/-- C8 counterexample: the claim says a gate whose `num_ops` exceeds the wire
budget is rejected at construction time.  No rejection exists: `num_ops` is a
public field and `new_from_config` is infallible (it returns `Self`, not a
`Result`), so the over-budget gate `{ num_ops: 100 }` is constructed without
any error for a config with `num_routed_wires = 8` (budget: 1 op at `D = 2`),
its `num_ops` intact and its `num_wires()` far beyond the budget. -/
theorem overbudget_gate_constructible :
    (⟨100⟩ : ArithmeticExtensionGate).num_ops = 100 ∧
    (⟨100⟩ : ArithmeticExtensionGate).num_wires 2 = 800 ∧
    (⟨8⟩ : CircuitConfig).num_routed_wires < (⟨100⟩ : ArithmeticExtensionGate).num_wires 2 := by
  refine ⟨rfl, rfl, ?_⟩
  decide

/-- C8 amended: `new_from_config` computes `num_ops = num_routed_wires / (4*D)`,
so a gate built from a config never has `num_wires()` exceeding
`config.num_routed_wires`; over-budget `num_ops` values are not rejected at
construction time (no fallible constructor exists), they simply cannot be
produced by `new_from_config`. -/
theorem new_from_config_within_budget (D : ℕ) (config : CircuitConfig) :
    (ArithmeticExtensionGate.new_from_config D config).num_wires D
      ≤ config.num_routed_wires := by
  show config.num_routed_wires / (4 * D) * 4 * D ≤ config.num_routed_wires
  calc config.num_routed_wires / (4 * D) * 4 * D
      = config.num_routed_wires / (4 * D) * (4 * D) := by ring
    _ ≤ config.num_routed_wires := Nat.div_mul_le_self _ _

/-! ## C5: wire-range layout -/

/-- C5: For every `D ≥ 1` and gate: the wire range of role `r` (slot `k`) of
operation `i` is exactly `4*D*i + k*D .. 4*D*i + (k+1)*D`; ranges of distinct
`(i, r)` pairs never overlap; `num_wires() = num_ops * 4 * D`; and when
`num_ops ≥ 1` this equals the highest wire index of
`wires_ith_output(num_ops - 1)` plus one (that index is in the range and is
its maximum). -/
theorem wire_ranges_layout_disjoint_and_bound (D : ℕ) (g : ArithmeticExtensionGate)
    (hD : 1 ≤ D) (hk : 1 ≤ g.num_ops) :
    (∀ i : ℕ, ∀ r : OpRole,
        OpRole.wiresOf D i r = ⟨4*D*i + r.slot * D, 4*D*i + (r.slot + 1) * D⟩) ∧
    (∀ i i' : ℕ, ∀ r r' : OpRole, (i, r) ≠ (i', r') → ∀ n : ℕ,
        ¬ (WRange.memR n (OpRole.wiresOf D i r) ∧ WRange.memR n (OpRole.wiresOf D i' r'))) ∧
    g.num_wires D = g.num_ops * 4 * D ∧
    g.num_wires D = (ArithmeticExtensionGate.wires_ith_output D (g.num_ops - 1)).stop ∧
    WRange.memR (g.num_wires D - 1)
      (ArithmeticExtensionGate.wires_ith_output D (g.num_ops - 1)) ∧
    (∀ n, WRange.memR n (ArithmeticExtensionGate.wires_ith_output D (g.num_ops - 1))
        → n ≤ g.num_wires D - 1) := by
  have hslot : ∀ r : OpRole, r.slot < 4 := by intro r; cases r <;> simp [OpRole.slot]
  have hstop : g.num_wires D
      = (ArithmeticExtensionGate.wires_ith_output D (g.num_ops - 1)).stop := by
    show g.num_ops * 4 * D = 4*D*(g.num_ops - 1) + 4*D
    have h1 : g.num_ops - 1 + 1 = g.num_ops := by omega
    calc g.num_ops * 4 * D = 4*D*(g.num_ops - 1 + 1) := by rw [h1]; ring
      _ = 4*D*(g.num_ops - 1) + 4*D := by ring
  refine ⟨?_, ?_, rfl, hstop, ?_, ?_⟩
  · intro i r
    cases r <;>
      simp only [OpRole.wiresOf, OpRole.slot,
        ArithmeticExtensionGate.wires_ith_multiplicand_0,
        ArithmeticExtensionGate.wires_ith_multiplicand_1,
        ArithmeticExtensionGate.wires_ith_addend,
        ArithmeticExtensionGate.wires_ith_output, WRange.mk.injEq] <;>
      constructor <;> ring
  · intro i i' r r' hne n hmem
    obtain ⟨hm, hm'⟩ := hmem
    rw [memR_wiresOf] at hm hm'
    obtain ⟨a, ha, rfl⟩ := hm
    obtain ⟨b, hb, heq⟩ := hm'
    obtain ⟨hq, -⟩ := interval_decomp_unique (show 0 < D by omega) ha hb heq
    obtain ⟨hi, hs⟩ := interval_decomp_unique (show 0 < 4 by omega) (hslot r) (hslot r') hq
    exact hne (by rw [hi, OpRole.slot_injective hs])
  · have e1 : (ArithmeticExtensionGate.wires_ith_output D (g.num_ops - 1)).start
        = 4*D*(g.num_ops - 1) + 3*D := rfl
    have e2 : (ArithmeticExtensionGate.wires_ith_output D (g.num_ops - 1)).stop
        = 4*D*(g.num_ops - 1) + 4*D := rfl
    rw [hstop]
    unfold WRange.memR
    rw [e1, e2]
    omega
  · intro n hn
    have e1 : (ArithmeticExtensionGate.wires_ith_output D (g.num_ops - 1)).start
        = 4*D*(g.num_ops - 1) + 3*D := rfl
    have e2 : (ArithmeticExtensionGate.wires_ith_output D (g.num_ops - 1)).stop
        = 4*D*(g.num_ops - 1) + 4*D := rfl
    unfold WRange.memR at hn
    rw [e1, e2] at hn
    rw [hstop, e2]
    omega

/-- C5 witness: the layout theorem applied at `D = 2`, `num_ops = 3`,
projecting the disjointness of the addend and output ranges of operation 0 at
wire 5, together with the concrete capacity facts. -/
theorem wire_ranges_layout_concrete :
    1 ≤ 2 ∧ 1 ≤ (⟨3⟩ : ArithmeticExtensionGate).num_ops ∧
    (⟨3⟩ : ArithmeticExtensionGate).num_wires 2 = 24 ∧
    ¬ (WRange.memR 5 (OpRole.wiresOf 2 0 OpRole.addendRole) ∧
       WRange.memR 5 (OpRole.wiresOf 2 0 OpRole.outputRole)) := by
  refine ⟨by decide, by decide, by decide, ?_⟩
  exact (wire_ranges_layout_disjoint_and_bound 2 ⟨3⟩ (by decide) (by decide)).2.1
    0 0 OpRole.addendRole OpRole.outputRole (by decide) 5

/-! ## C6: constraint count and vanishing characterization -/

/-- C6: For every gate and every evaluation input (with the two constants
present), `eval_unfiltered` returns exactly `num_constraints() = num_ops * D`
values, and they are all zero iff for every operation `i` the packed output
wires equal `multiplicand_0 * multiplicand_1 * const_0 + addend * const_1`
in the extension algebra. -/
theorem eval_unfiltered_length_and_vanishing {R : Type*} [CommRing R]
    (D : ℕ) (w : R) (g : ArithmeticExtensionGate) (local_constants : List R)
    (local_wires : ℕ → R) (c0 c1 : R) (out : List R)
    (h0 : local_constants.get? 0 = some c0)
    (h1 : local_constants.get? 1 = some c1)
    (he : ArithmeticExtensionGate.eval_unfiltered D w g local_constants local_wires
        = some out) :
    out.length = g.num_constraints D ∧
    ((∀ x ∈ out, x = 0) ↔ ∀ i < g.num_ops,
      get_local_ext_algebra D local_wires (ArithmeticExtensionGate.wires_ith_output D i)
        = extAdd
            (scalar_mul c0 (extMul w
              (get_local_ext_algebra D local_wires
                (ArithmeticExtensionGate.wires_ith_multiplicand_0 D i))
              (get_local_ext_algebra D local_wires
                (ArithmeticExtensionGate.wires_ith_multiplicand_1 D i))))
            (scalar_mul c1 (get_local_ext_algebra D local_wires
              (ArithmeticExtensionGate.wires_ith_addend D i)))) := by
  unfold ArithmeticExtensionGate.eval_unfiltered at he
  rw [h0, h1] at he
  simp only [Option.pure_def, Option.bind_eq_bind, Option.some_bind,
    Option.some.injEq] at he
  subst he
  constructor
  · rw [List.length_flatMap]
    have hlen : List.map (List.length ∘ fun i =>
        List.ofFn (fun j : Fin D => extSub
          (get_local_ext_algebra D local_wires (ArithmeticExtensionGate.wires_ith_output D i))
          (extAdd
            (scalar_mul c0 (extMul w
              (get_local_ext_algebra D local_wires
                (ArithmeticExtensionGate.wires_ith_multiplicand_0 D i))
              (get_local_ext_algebra D local_wires
                (ArithmeticExtensionGate.wires_ith_multiplicand_1 D i))))
            (scalar_mul c1 (get_local_ext_algebra D local_wires
              (ArithmeticExtensionGate.wires_ith_addend D i)))) j)) (List.range g.num_ops)
        = List.map (fun _ => D) (List.range g.num_ops) :=
      List.map_congr_left (fun i _ => List.length_ofFn _)
    rw [hlen]
    simp [List.map_const', ArithmeticExtensionGate.num_constraints, mul_comm]
  · constructor
    · intro hz i hi
      funext j
      have := hz _ (List.mem_flatMap.mpr
        ⟨i, List.mem_range.mpr hi, (List.mem_ofFn _ _).mpr ⟨j, rfl⟩⟩)
      exact sub_eq_zero.mp this
    · intro hq x hx
      obtain ⟨i, hi, hxo⟩ := List.mem_flatMap.mp hx
      obtain ⟨j, rfl⟩ := Set.mem_range.mp ((List.mem_ofFn _ _).mp hxo)
      have hfun := hq i (List.mem_range.mp hi)
      show _ - _ = 0
      rw [hfun]
      exact sub_self _

/-- C6 witness: the theorem applied to the spec's worked example (`D = 2`,
`num_ops = 1`, constants 1, inputs 3, 4, 5, output 17 over Goldilocks), whose
two constraint values are both zero and whose count is `num_constraints`. -/
theorem eval_unfiltered_length_and_vanishing_concrete :
    (([(1 : GF), 1].get? 0 = some 1) ∧ ([(1 : GF), 1].get? 1 = some 1) ∧
      ArithmeticExtensionGate.eval_unfiltered (R := GF) 2 7 ⟨1⟩ [1, 1]
        (fun n => if n = 0 then 3 else if n = 2 then 4 else if n = 4 then 5
          else if n = 6 then 17 else 0) = some [0, 0]) ∧
    [(0 : GF), 0].length = (⟨1⟩ : ArithmeticExtensionGate).num_constraints 2 :=
  ⟨⟨by decide, by decide, by decide⟩,
    (eval_unfiltered_length_and_vanishing 2 7 ⟨1⟩ [1, 1]
      (fun n => if n = 0 then 3 else if n = 2 then 4 else if n = 4 then 5
        else if n = 6 then 17 else 0) 1 1 [0, 0]
      (by decide) (by decide) (by decide)).1⟩

/-! ## C2: base-field vs extension evaluation -/

/-- A ring homomorphism commutes with the modelled extension multiplication. -/
theorem map_extMul {F K : Type*} [CommRing F] [CommRing K] (φ : F →+* K)
    {D : ℕ} (w : F) (a b : Fin D → F) (j : Fin D) :
    φ (extMul w a b j) = extMul (φ w) (fun t => φ (a t)) (fun t => φ (b t)) j := by
  unfold extMul
  rw [map_sum]
  refine Finset.sum_congr rfl fun i _ => ?_
  rw [map_sum]
  refine Finset.sum_congr rfl fun t _ => ?_
  rw [apply_ite φ, apply_ite φ]
  simp [map_mul]

/-- C2: `eval_unfiltered` and `eval_unfiltered_base_one` are the same
constraint formula rendered in two algebras.  For every embedding
`φ : F →+* K` of the base field into the extension's coefficient ring (the
degree-1 specialization view), `eval_unfiltered` on the `φ`-mapped inputs
returns exactly the `φ`-image of the `eval_unfiltered_base_one` values, i.e.
the two agree at every base coordinate; failure (missing constants) also
coincides. -/
theorem eval_unfiltered_refines_base_one {F K : Type*} [CommRing F] [CommRing K]
    (φ : F →+* K) (D : ℕ) (w : F) (g : ArithmeticExtensionGate)
    (local_constants : List F) (local_wires : ℕ → F) :
    ArithmeticExtensionGate.eval_unfiltered D (φ w) g (local_constants.map φ)
        (fun n => φ (local_wires n))
      = (ArithmeticExtensionGate.eval_unfiltered_base_one D w g local_constants
          local_wires).map (List.map φ) := by
  unfold ArithmeticExtensionGate.eval_unfiltered
    ArithmeticExtensionGate.eval_unfiltered_base_one
  rw [List.get?_map, List.get?_map]
  cases h0 : local_constants.get? 0 with
  | none => rfl
  | some c0 =>
    cases h1 : local_constants.get? 1 with
    | none => rfl
    | some c1 =>
      simp only [Option.map_some', Option.pure_def, Option.bind_eq_bind,
        Option.some_bind, Option.map_some']
      congr 1
      rw [List.map_flatMap]
      congr 1
      funext i
      rw [List.map_ofFn]
      congr 1
      funext j
      show _ = φ (extSub _ _ j)
      unfold extSub extAdd scalar_mul get_local_ext get_local_ext_algebra
      rw [map_sub, map_add, map_mul, map_mul, map_extMul]

/-! ## C3: in-circuit evaluation agrees with direct evaluation -/

/-- C3: evaluating the circuit built by `eval_unfiltered_circuit` — one
`evalAlgExpr` step per builder operation, with the same input wire and
constant values assigned to its input targets — produces outputs identical to
calling `eval_unfiltered` directly on those inputs (and the two fail
identically on missing constants).  The only difference between the two
formulas is that `scalar_mul_add_ext_algebra` adds its operands in the
opposite order, which commutes. -/
theorem eval_unfiltered_circuit_agrees {K : Type*} [CommRing K]
    (D : ℕ) (w : K) (g : ArithmeticExtensionGate) (local_constants : List K)
    (local_wires : ℕ → K) :
    (ArithmeticExtensionGate.eval_unfiltered_circuit D g local_constants
        local_wires).map (List.map (fun p => evalAlgExpr w p.1 p.2))
      = ArithmeticExtensionGate.eval_unfiltered D w g local_constants local_wires := by
  unfold ArithmeticExtensionGate.eval_unfiltered_circuit
    ArithmeticExtensionGate.eval_unfiltered
  cases h0 : local_constants.get? 0 with
  | none => rfl
  | some c0 =>
    cases h1 : local_constants.get? 1 with
    | none => rfl
    | some c1 =>
      simp only [Option.pure_def, Option.bind_eq_bind, Option.some_bind,
        Option.map_some']
      congr 1
      rw [List.map_flatMap]
      congr 1
      funext i
      rw [List.map_ofFn]
      congr 1
      funext j
      show evalAlgExpr w _ j = _
      simp only [evalAlgExpr]
      unfold extSub extAdd scalar_mul
      ring

/-! ## C10: constant accesses -/

/-- A `mapM` over `Option` whose steps all succeed returns the mapped list. -/
theorem mapM_eq_some_map {α β : Type*} (l : List α) (f : α → Option β) (gf : α → β)
    (h : ∀ a ∈ l, f a = some (gf a)) : l.mapM f = some (l.map gf) := by
  induction l with
  | nil => rfl
  | cons a t ih =>
    rw [List.mapM_cons, h a (by simp), ih (fun x hx => h x (by simp [hx]))]
    rfl

/-- C10 counterexample: the claim says that with a constants slice shorter
than 2 each of the four operations fails by out-of-bounds indexing.  But the
`generators` closure indexes `local_constants` only inside the per-operation
loop, so with `num_ops = 0` nothing is accessed and the call succeeds on an
empty slice, returning the empty generator list. -/
theorem generators_no_ops_short_constants_succeeds :
    ArithmeticExtensionGate.generators (F := GF) 2 ⟨0⟩ 5 [] = some [] := rfl

/-- C10 amended: all four constant-reading operations access only
`local_constants[0]` and `local_constants[1]` (they depend on nothing beyond
the first two entries); with at least 2 entries none fails; with fewer than 2
entries the three evaluation routines fail by out-of-bounds indexing, and so
does `generators` whenever `num_ops ≥ 1`, while `generators` with
`num_ops = 0` reads no constant and succeeds with the empty list. -/
theorem constant_access_bounds {F : Type*} [CommRing F] (D : ℕ) (w : F)
    (g : ArithmeticExtensionGate) (row : ℕ) (local_wires : ℕ → F)
    (local_constants local_constants' : List F) :
    (local_constants.get? 0 = local_constants'.get? 0 →
      local_constants.get? 1 = local_constants'.get? 1 →
      (ArithmeticExtensionGate.eval_unfiltered D w g local_constants local_wires
          = ArithmeticExtensionGate.eval_unfiltered D w g local_constants' local_wires ∧
        ArithmeticExtensionGate.eval_unfiltered_base_one D w g local_constants local_wires
          = ArithmeticExtensionGate.eval_unfiltered_base_one D w g local_constants' local_wires ∧
        ArithmeticExtensionGate.eval_unfiltered_circuit (K := F) D g local_constants local_wires
          = ArithmeticExtensionGate.eval_unfiltered_circuit D g local_constants' local_wires ∧
        ArithmeticExtensionGate.generators D g row local_constants
          = ArithmeticExtensionGate.generators D g row local_constants')) ∧
    (2 ≤ local_constants.length →
      ((ArithmeticExtensionGate.eval_unfiltered D w g local_constants local_wires).isSome ∧
        (ArithmeticExtensionGate.eval_unfiltered_base_one D w g local_constants
          local_wires).isSome ∧
        (ArithmeticExtensionGate.eval_unfiltered_circuit (K := F) D g local_constants
          local_wires).isSome ∧
        (ArithmeticExtensionGate.generators D g row local_constants).isSome)) ∧
    (local_constants.length < 2 →
      (ArithmeticExtensionGate.eval_unfiltered D w g local_constants local_wires = none ∧
        ArithmeticExtensionGate.eval_unfiltered_base_one D w g local_constants
          local_wires = none ∧
        ArithmeticExtensionGate.eval_unfiltered_circuit (K := F) D g local_constants
          local_wires = none ∧
        (1 ≤ g.num_ops →
          ArithmeticExtensionGate.generators D g row local_constants = none) ∧
        (g.num_ops = 0 →
          ArithmeticExtensionGate.generators D g row local_constants = some []))) := by
  refine ⟨?_, ?_, ?_⟩
  · intro e0 e1
    refine ⟨?_, ?_, ?_, ?_⟩
    · unfold ArithmeticExtensionGate.eval_unfiltered
      rw [e0, e1]
    · unfold ArithmeticExtensionGate.eval_unfiltered_base_one
      rw [e0, e1]
    · unfold ArithmeticExtensionGate.eval_unfiltered_circuit
      rw [e0, e1]
    · unfold ArithmeticExtensionGate.generators
      simp only [e0, e1]
  · intro hlen
    match local_constants, hlen with
    | a :: b :: t, _ =>
      refine ⟨?_, ?_, ?_, ?_⟩
      · simp [ArithmeticExtensionGate.eval_unfiltered]
      · simp [ArithmeticExtensionGate.eval_unfiltered_base_one]
      · simp [ArithmeticExtensionGate.eval_unfiltered_circuit]
      · unfold ArithmeticExtensionGate.generators
        rw [mapM_eq_some_map _
            (fun i => do
              let const_0 ← (a :: b :: t).get? 0
              let const_1 ← (a :: b :: t).get? 1
              pure (⟨row, const_0, const_1, i⟩ : ArithmeticExtensionGenerator F))
            (fun i => ⟨row, a, b, i⟩) (fun i _ => rfl)]
        rfl
  · intro hlen
    have hgen1 : 1 ≤ g.num_ops →
        ArithmeticExtensionGate.generators (F := F) D g row local_constants = none := by
      intro hops
      obtain ⟨m, hm⟩ : ∃ m, g.num_ops = m + 1 := ⟨g.num_ops - 1, by omega⟩
      unfold ArithmeticExtensionGate.generators
      rw [hm, List.range_succ_eq_map, List.mapM_cons]
      match local_constants, hlen with
      | [], _ => rfl
      | [a], _ => rfl
    have hgen0 : g.num_ops = 0 →
        ArithmeticExtensionGate.generators (F := F) D g row local_constants = some [] := by
      intro hops
      unfold ArithmeticExtensionGate.generators
      rw [hops]
      rfl
    match local_constants, hlen with
    | [], _ => exact ⟨rfl, rfl, rfl, hgen1, hgen0⟩
    | [a], _ => exact ⟨rfl, rfl, rfl, hgen1, hgen0⟩

/-- C10 witness: the amended theorem applied at `D = 2`, `num_ops = 1` over
Goldilocks, with constants `[1, 2]` and `[1, 2, 3]` agreeing on their first
two entries, plus the success of evaluation on the length-2 slice. -/
theorem constant_access_bounds_concrete :
    (([(1 : GF), 2]).get? 0 = ([(1 : GF), 2, 3]).get? 0 ∧
      ([(1 : GF), 2]).get? 1 = ([(1 : GF), 2, 3]).get? 1 ∧
      2 ≤ ([(1 : GF), 2]).length ∧
      ArithmeticExtensionGate.generators (F := GF) 2 ⟨1⟩ 0 [1, 2]
        = ArithmeticExtensionGate.generators (F := GF) 2 ⟨1⟩ 0 [1, 2, 3]) ∧
    (ArithmeticExtensionGate.eval_unfiltered (R := GF) 2 7 ⟨1⟩ [1, 2]
      (fun _ => 0)).isSome :=
  ⟨⟨by decide, by decide, by decide,
      ((constant_access_bounds 2 7 ⟨1⟩ 0 (fun _ => 0) [1, 2] [1, 2, 3]).1
        (by decide) (by decide)).2.2.2⟩,
    ((constant_access_bounds 2 7 ⟨1⟩ 0 (fun _ => 0) [1, 2] [1, 2, 3]).2.1
      (by decide)).1⟩

/-! ## C7: dependencies and writes -/

/-- Iterating a range yields exactly its members. -/
theorem WRange.mem_toList {c : ℕ} {r : WRange} : c ∈ r.toList ↔ WRange.memR c r := by
  unfold WRange.toList WRange.memR
  simp only [List.mem_map, List.mem_range]
  constructor
  · rintro ⟨j, hj, rfl⟩
    omega
  · rintro ⟨h1, h2⟩
    exact ⟨c - r.start, by omega, by omega⟩

/-- Membership in a width-`D` range, enumerated by `Fin D`. -/
theorem memR_iff_fin {c D : ℕ} {r : WRange} (hw : r.stop = r.start + D) :
    WRange.memR c r ↔ ∃ j : Fin D, c = r.start + j.1 := by
  unfold WRange.memR
  rw [hw]
  constructor
  · rintro ⟨h1, h2⟩
    refine ⟨⟨c - r.start, by omega⟩, ?_⟩
    show c = r.start + (c - r.start)
    omega
  · rintro ⟨j, rfl⟩
    have := j.2
    omega

/-- The `multiplicand_0` range has width `D`. -/
theorem wires_ith_multiplicand_0_width (D i : ℕ) :
    (ArithmeticExtensionGate.wires_ith_multiplicand_0 D i).stop
      = (ArithmeticExtensionGate.wires_ith_multiplicand_0 D i).start + D := rfl

/-- The `multiplicand_1` range has width `D`. -/
theorem wires_ith_multiplicand_1_width (D i : ℕ) :
    (ArithmeticExtensionGate.wires_ith_multiplicand_1 D i).stop
      = (ArithmeticExtensionGate.wires_ith_multiplicand_1 D i).start + D := by
  show 4*D*i + 2*D = 4*D*i + D + D
  ring

/-- The `addend` range has width `D`. -/
theorem wires_ith_addend_width (D i : ℕ) :
    (ArithmeticExtensionGate.wires_ith_addend D i).stop
      = (ArithmeticExtensionGate.wires_ith_addend D i).start + D := by
  show 4*D*i + 3*D = 4*D*i + 2*D + D
  ring

/-- The `output` range has width `D`. -/
theorem wires_ith_output_width (D i : ℕ) :
    (ArithmeticExtensionGate.wires_ith_output D i).stop
      = (ArithmeticExtensionGate.wires_ith_output D i).start + D := by
  show 4*D*i + 4*D = 4*D*i + 3*D + D
  ring

/-- Reading an extension target succeeds iff all its wires are assigned. -/
theorem get_extension_target_isSome {F : Type*} [CommRing F] {D : ℕ}
    (witness : Target → Option F) (row : ℕ) (r : WRange) :
    (ArithmeticExtensionGenerator.get_extension_target D witness row r).isSome ↔
      ∀ j : Fin D, (witness (Target.wire row (r.start + j.1))).isSome := by
  unfold ArithmeticExtensionGenerator.get_extension_target
  split
  · rename_i h
    exact iff_of_true rfl h
  · rename_i h
    exact iff_of_false (by simp) h

/-- Reading an extension target only looks at the wires of its range. -/
theorem get_extension_target_congr {F : Type*} [CommRing F] {D : ℕ}
    (wt1 wt2 : Target → Option F) (row : ℕ) (r : WRange)
    (h : ∀ j : Fin D, wt1 (Target.wire row (r.start + j.1))
        = wt2 (Target.wire row (r.start + j.1))) :
    ArithmeticExtensionGenerator.get_extension_target D wt1 row r
      = ArithmeticExtensionGenerator.get_extension_target D wt2 row r := by
  unfold ArithmeticExtensionGenerator.get_extension_target
  split
  · rename_i h1
    split
    · rename_i h2
      congr 1
      funext j
      have e := h j
      simp only [e]
    · rename_i h2
      exact absurd (fun j => (h j) ▸ h1 j) h2
  · rename_i h1
    split
    · rename_i h2
      exact absurd (fun j => (h j).symm ▸ h2 j) h1
    · rfl

/-- Quantifying over the generator's dependencies splits into the three
operand ranges, coordinate by coordinate. -/
theorem forall_mem_dependencies_iff {F : Type*} [CommRing F] {D : ℕ}
    (gen : ArithmeticExtensionGenerator F) (P : Target → Prop) :
    (∀ t ∈ gen.dependencies D, P t) ↔
      ((∀ j : Fin D, P (Target.wire gen.row
          ((ArithmeticExtensionGate.wires_ith_multiplicand_0 D gen.i).start + j.1))) ∧
        (∀ j : Fin D, P (Target.wire gen.row
          ((ArithmeticExtensionGate.wires_ith_multiplicand_1 D gen.i).start + j.1))) ∧
        (∀ j : Fin D, P (Target.wire gen.row
          ((ArithmeticExtensionGate.wires_ith_addend D gen.i).start + j.1)))) := by
  unfold ArithmeticExtensionGenerator.dependencies
  simp only [List.map_append, List.mem_append, List.mem_map]
  constructor
  · intro h
    refine ⟨fun j => h _ (Or.inl (Or.inl ⟨_, ?_, rfl⟩)),
        fun j => h _ (Or.inl (Or.inr ⟨_, ?_, rfl⟩)),
        fun j => h _ (Or.inr ⟨_, ?_, rfl⟩)⟩
    · exact WRange.mem_toList.mpr
        ((memR_iff_fin (wires_ith_multiplicand_0_width D gen.i)).mpr ⟨j, rfl⟩)
    · exact WRange.mem_toList.mpr
        ((memR_iff_fin (wires_ith_multiplicand_1_width D gen.i)).mpr ⟨j, rfl⟩)
    · exact WRange.mem_toList.mpr
        ((memR_iff_fin (wires_ith_addend_width D gen.i)).mpr ⟨j, rfl⟩)
  · rintro ⟨h0, h1, h2⟩ t ((⟨c, hc, rfl⟩ | ⟨c, hc, rfl⟩) | ⟨c, hc, rfl⟩)
    · obtain ⟨j, rfl⟩ := (memR_iff_fin (wires_ith_multiplicand_0_width D gen.i)).mp
        (WRange.mem_toList.mp hc)
      exact h0 j
    · obtain ⟨j, rfl⟩ := (memR_iff_fin (wires_ith_multiplicand_1_width D gen.i)).mp
        (WRange.mem_toList.mp hc)
      exact h1 j
    · obtain ⟨j, rfl⟩ := (memR_iff_fin (wires_ith_addend_width D gen.i)).mp
        (WRange.mem_toList.mp hc)
      exact h2 j

/-- Membership in the `multiplicand_0` range, unfolded. -/
theorem memR_m0 {D i c : ℕ} :
    WRange.memR c (ArithmeticExtensionGate.wires_ith_multiplicand_0 D i) ↔
      (4*D*i ≤ c ∧ c < 4*D*i + D) := Iff.rfl

/-- Membership in the `multiplicand_1` range, unfolded. -/
theorem memR_m1 {D i c : ℕ} :
    WRange.memR c (ArithmeticExtensionGate.wires_ith_multiplicand_1 D i) ↔
      (4*D*i + D ≤ c ∧ c < 4*D*i + 2*D) := Iff.rfl

/-- Membership in the `addend` range, unfolded. -/
theorem memR_addend {D i c : ℕ} :
    WRange.memR c (ArithmeticExtensionGate.wires_ith_addend D i) ↔
      (4*D*i + 2*D ≤ c ∧ c < 4*D*i + 3*D) := Iff.rfl

/-- Membership in the `output` range, unfolded. -/
theorem memR_output {D i c : ℕ} :
    WRange.memR c (ArithmeticExtensionGate.wires_ith_output D i) ↔
      (4*D*i + 3*D ≤ c ∧ c < 4*D*i + 4*D) := Iff.rfl

/-- Start of the `output` range, unfolded. -/
theorem wires_ith_output_start {D i : ℕ} :
    (ArithmeticExtensionGate.wires_ith_output D i).start = 4*D*i + 3*D := rfl

/-- C7: `dependencies()` is exactly the set of wires `run_once` reads — the
three operand ranges of operation `i` at the generator's row: `run_once`
succeeds precisely when every dependency is assigned, its result depends on
the witness only through the dependency wires, and the set of wires it writes
(the output range of operation `i` at the same row) is disjoint from the
dependency set. -/
theorem dependencies_exact_and_writes_disjoint {F : Type*} [CommRing F]
    (D : ℕ) (w : F) (gen : ArithmeticExtensionGenerator F) :
    (∀ t : Target, t ∈ gen.dependencies D ↔ ∃ c : ℕ,
        Target.wire gen.row c = t ∧
        (WRange.memR c (ArithmeticExtensionGate.wires_ith_multiplicand_0 D gen.i) ∨
          WRange.memR c (ArithmeticExtensionGate.wires_ith_multiplicand_1 D gen.i) ∨
          WRange.memR c (ArithmeticExtensionGate.wires_ith_addend D gen.i))) ∧
    (∀ witness : Target → Option F,
        (gen.run_once D w witness).isSome ↔
          ∀ t ∈ gen.dependencies D, (witness t).isSome) ∧
    (∀ wt1 wt2 : Target → Option F,
        (∀ t ∈ gen.dependencies D, wt1 t = wt2 t) →
        gen.run_once D w wt1 = gen.run_once D w wt2) ∧
    (∀ (witness : Target → Option F) (writes : List (Target × F)),
        gen.run_once D w witness = some writes →
        ((∀ t : Target, t ∈ writes.map Prod.fst ↔ ∃ c : ℕ,
            Target.wire gen.row c = t ∧
            WRange.memR c (ArithmeticExtensionGate.wires_ith_output D gen.i)) ∧
          ∀ t ∈ writes.map Prod.fst, t ∉ gen.dependencies D)) := by
  refine ⟨?_, ?_, ?_, ?_⟩
  · intro t
    unfold ArithmeticExtensionGenerator.dependencies
    simp only [List.map_append, List.mem_append, List.mem_map, WRange.mem_toList]
    constructor
    · rintro ((⟨c, hc, rfl⟩ | ⟨c, hc, rfl⟩) | ⟨c, hc, rfl⟩)
      · exact ⟨c, rfl, Or.inl hc⟩
      · exact ⟨c, rfl, Or.inr (Or.inl hc)⟩
      · exact ⟨c, rfl, Or.inr (Or.inr hc)⟩
    · rintro ⟨c, rfl, (hc | hc | hc)⟩
      · exact Or.inl (Or.inl ⟨c, hc, rfl⟩)
      · exact Or.inl (Or.inr ⟨c, hc, rfl⟩)
      · exact Or.inr ⟨c, hc, rfl⟩
  · intro witness
    rw [forall_mem_dependencies_iff gen (fun t => (witness t).isSome)]
    rw [← get_extension_target_isSome witness gen.row
        (ArithmeticExtensionGate.wires_ith_multiplicand_0 D gen.i),
      ← get_extension_target_isSome witness gen.row
        (ArithmeticExtensionGate.wires_ith_multiplicand_1 D gen.i),
      ← get_extension_target_isSome witness gen.row
        (ArithmeticExtensionGate.wires_ith_addend D gen.i)]
    unfold ArithmeticExtensionGenerator.run_once
    cases hg0 : ArithmeticExtensionGenerator.get_extension_target D witness gen.row
        (ArithmeticExtensionGate.wires_ith_multiplicand_0 D gen.i) <;>
      cases hg1 : ArithmeticExtensionGenerator.get_extension_target D witness gen.row
          (ArithmeticExtensionGate.wires_ith_multiplicand_1 D gen.i) <;>
        cases hg2 : ArithmeticExtensionGenerator.get_extension_target D witness gen.row
            (ArithmeticExtensionGate.wires_ith_addend D gen.i) <;>
          simp
  · intro wt1 wt2 hagree
    rw [forall_mem_dependencies_iff gen (fun t => wt1 t = wt2 t)] at hagree
    obtain ⟨ha0, ha1, ha2⟩ := hagree
    unfold ArithmeticExtensionGenerator.run_once
    rw [get_extension_target_congr wt1 wt2 gen.row _ ha0,
      get_extension_target_congr wt1 wt2 gen.row _ ha1,
      get_extension_target_congr wt1 wt2 gen.row _ ha2]
  · intro witness writes h
    unfold ArithmeticExtensionGenerator.run_once at h
    cases hg0 : ArithmeticExtensionGenerator.get_extension_target D witness gen.row
        (ArithmeticExtensionGate.wires_ith_multiplicand_0 D gen.i) with
    | none => rw [hg0] at h; simp at h
    | some v0 =>
      rw [hg0] at h
      cases hg1 : ArithmeticExtensionGenerator.get_extension_target D witness gen.row
          (ArithmeticExtensionGate.wires_ith_multiplicand_1 D gen.i) with
      | none => rw [hg1] at h; simp at h
      | some v1 =>
        rw [hg1] at h
        cases hg2 : ArithmeticExtensionGenerator.get_extension_target D witness gen.row
            (ArithmeticExtensionGate.wires_ith_addend D gen.i) with
        | none => rw [hg2] at h; simp at h
        | some v2 =>
          rw [hg2] at h
          simp only [Option.pure_def, Option.bind_eq_bind, Option.some_bind,
            Option.some.injEq] at h
          subst h
          have hmap : (ArithmeticExtensionGenerator.set_extension_target D gen.row
              (ArithmeticExtensionGate.wires_ith_output D gen.i)
              (extAdd (scalar_mul gen.const_0 (extMul w v0 v1))
                (scalar_mul gen.const_1 v2))).map Prod.fst
              = List.ofFn (fun j : Fin D => Target.wire gen.row
                  ((ArithmeticExtensionGate.wires_ith_output D gen.i).start + j.1)) := by
            unfold ArithmeticExtensionGenerator.set_extension_target
            rw [List.map_ofFn]
            rfl
          rw [hmap]
          constructor
          · intro t
            constructor
            · intro ht
              obtain ⟨j, rfl⟩ := Set.mem_range.mp ((List.mem_ofFn _ _).mp ht)
              exact ⟨(ArithmeticExtensionGate.wires_ith_output D gen.i).start + j.1, rfl,
                (memR_iff_fin (wires_ith_output_width D gen.i)).mpr ⟨j, rfl⟩⟩
            · rintro ⟨c, rfl, hc⟩
              obtain ⟨j, rfl⟩ := (memR_iff_fin (wires_ith_output_width D gen.i)).mp hc
              exact (List.mem_ofFn _ _).mpr ⟨j, rfl⟩
          · intro t ht hdep
            obtain ⟨j, rfl⟩ := Set.mem_range.mp ((List.mem_ofFn _ _).mp ht)
            unfold ArithmeticExtensionGenerator.dependencies at hdep
            simp only [List.map_append, List.mem_append, List.mem_map,
              WRange.mem_toList] at hdep
            have hj := j.2
            rcases hdep with ((⟨c, hc, heq⟩ | ⟨c, hc, heq⟩) | ⟨c, hc, heq⟩) <;>
              (simp only [Target.wire, Target.mk.injEq, true_and] at heq
               rw [wires_ith_output_start] at heq) <;>
              [rw [memR_m0] at hc; rw [memR_m1] at hc; rw [memR_addend] at hc] <;>
              omega

/-- C7 witness: over Goldilocks at `D = 2`, row 0, operation 0, a witness
assigning every wire satisfies the dependency set, and `run_once` succeeds
on it, by the exactness theorem. -/
theorem dependencies_exact_concrete :
    (∀ t ∈ (⟨0, (1 : GF), 1, 0⟩ : ArithmeticExtensionGenerator GF).dependencies 2,
        ((fun _ : Target => some (3 : GF)) t).isSome) ∧
    (ArithmeticExtensionGenerator.run_once 2 7
        (⟨0, (1 : GF), 1, 0⟩ : ArithmeticExtensionGenerator GF)
        (fun _ : Target => some (3 : GF))).isSome :=
  ⟨by decide,
    ((dependencies_exact_and_writes_disjoint 2 7 ⟨0, 1, 1, 0⟩).2.1
      (fun _ : Target => some (3 : GF))).mpr (by decide)⟩

/-! ## C1: generators fill the outputs and the constraints vanish -/

/-- Committing writes leaves non-written wires untouched. -/
theorem commit_not_mem {F : Type*} [CommRing F] (writes : List (Target × F))
    (witness : Target → Option F) (t : Target) (h : t ∉ writes.map Prod.fst) :
    commit writes witness t = witness t := by
  induction writes with
  | nil => rfl
  | cons p rest ih =>
    obtain ⟨t', v⟩ := p
    show (if t = t' then some v else commit rest witness t) = witness t
    rw [if_neg, ih]
    · intro hmem
      exact h (by simp [hmem])
    · intro heq
      exact h (by simp [heq])

/-- Committing writes with pairwise-distinct wires publishes each value. -/
theorem commit_mem_nodup {F : Type*} [CommRing F] (writes : List (Target × F))
    (witness : Target → Option F) (t : Target) (v : F)
    (hmem : (t, v) ∈ writes) (hnd : (writes.map Prod.fst).Nodup) :
    commit writes witness t = some v := by
  induction writes with
  | nil => cases hmem
  | cons p rest ih =>
    obtain ⟨t', v'⟩ := p
    show (if t = t' then some v' else commit rest witness t) = some v
    rcases List.mem_cons.mp hmem with heq | hmem'
    · obtain ⟨rfl, rfl⟩ := Prod.mk.injEq .. ▸ heq
      injection heq with h1 h2
      rw [if_pos rfl]
    · have hne : t ≠ t' := by
        intro heq
        subst heq
        exact (List.nodup_cons.mp hnd).1 (List.mem_map.mpr ⟨(t, v), hmem', rfl⟩)
      rw [if_neg hne]
      exact ih hmem' (List.nodup_cons.mp hnd).2

/-- Two wire targets in distinct `(operation, slot)` cells differ. -/
theorem wire_targets_ne {row D i i' k k' : ℕ} (j j' : Fin D)
    (hk : k < 4) (hk' : k' < 4) (hne : i ≠ i' ∨ k ≠ k') :
    Target.wire row (D * (4*i + k) + j.1) ≠ Target.wire row (D * (4*i' + k') + j'.1) := by
  intro h
  simp only [Target.wire, Target.mk.injEq, true_and] at h
  obtain ⟨hq, -⟩ := interval_decomp_unique (show 0 < D by have := j.2; omega) j.2 j'.2 h
  obtain ⟨hi, hkk⟩ := interval_decomp_unique (show 0 < 4 by omega) hk hk' hq
  tauto

/-- Start of `multiplicand_0`, in slot form. -/
theorem m0_start_eq (D i : ℕ) :
    (ArithmeticExtensionGate.wires_ith_multiplicand_0 D i).start = D * (4*i + 0) := by
  show 4*D*i = D * (4*i + 0)
  ring

/-- Start of `multiplicand_1`, in slot form. -/
theorem m1_start_eq (D i : ℕ) :
    (ArithmeticExtensionGate.wires_ith_multiplicand_1 D i).start = D * (4*i + 1) := by
  show 4*D*i + D = D * (4*i + 1)
  ring

/-- Start of `addend`, in slot form. -/
theorem addend_start_eq (D i : ℕ) :
    (ArithmeticExtensionGate.wires_ith_addend D i).start = D * (4*i + 2) := by
  show 4*D*i + 2*D = D * (4*i + 2)
  ring

/-- Start of `output`, in slot form. -/
theorem output_start_eq (D i : ℕ) :
    (ArithmeticExtensionGate.wires_ith_output D i).start = D * (4*i + 3) := by
  show 4*D*i + 3*D = D * (4*i + 3)
  ring

/-- Reading an extension target whose wires are all assigned yields their
packed values. -/
theorem get_extension_target_eq_of {F : Type*} [CommRing F] {D : ℕ}
    (wit : Target → Option F) (row : ℕ) (r : WRange) (v : Fin D → F)
    (h : ∀ j : Fin D, wit (Target.wire row (r.start + j.1)) = some (v j)) :
    ArithmeticExtensionGenerator.get_extension_target D wit row r = some v := by
  unfold ArithmeticExtensionGenerator.get_extension_target
  rw [dif_pos (fun j => by rw [h j]; rfl)]
  congr 1
  funext j
  simp only [h j, Option.get_some]

/-- Running the generators of the listed operations, in order, succeeds when
every listed operation's input wires are assigned; it writes each operation's
output wires with `c0 * m0 * m1 + c1 * addend` and touches nothing else. -/
theorem run_generators_spec {F : Type*} [CommRing F] (D row : ℕ) (w c0 c1 : F)
    (m0v m1v av : ℕ → Fin D → F) :
    ∀ (l : List ℕ) (wit : Target → Option F),
    (∀ i ∈ l, ∀ j : Fin D, wit (Target.wire row
        ((ArithmeticExtensionGate.wires_ith_multiplicand_0 D i).start + j.1))
        = some (m0v i j)) →
    (∀ i ∈ l, ∀ j : Fin D, wit (Target.wire row
        ((ArithmeticExtensionGate.wires_ith_multiplicand_1 D i).start + j.1))
        = some (m1v i j)) →
    (∀ i ∈ l, ∀ j : Fin D, wit (Target.wire row
        ((ArithmeticExtensionGate.wires_ith_addend D i).start + j.1))
        = some (av i j)) →
    ∃ wfin : Target → Option F,
      run_generators D w (l.map (fun i =>
        (⟨row, c0, c1, i⟩ : ArithmeticExtensionGenerator F))) wit = some wfin ∧
      (∀ t : Target, (∀ i ∈ l, ∀ j : Fin D,
          t ≠ Target.wire row
            ((ArithmeticExtensionGate.wires_ith_output D i).start + j.1)) →
        wfin t = wit t) ∧
      (∀ i ∈ l, ∀ j : Fin D,
        wfin (Target.wire row ((ArithmeticExtensionGate.wires_ith_output D i).start + j.1))
          = some (extAdd (scalar_mul c0 (extMul w (m0v i) (m1v i)))
              (scalar_mul c1 (av i)) j)) := by
  intro l
  induction l with
  | nil =>
    intro wit _ _ _
    exact ⟨wit, rfl, fun t _ => rfl, fun i hi => absurd hi (List.not_mem_nil i)⟩
  | cons i0 l' ih =>
    intro wit hm0 hm1 ha
    have hrun : ArithmeticExtensionGenerator.run_once D w ⟨row, c0, c1, i0⟩ wit
        = some (ArithmeticExtensionGenerator.set_extension_target D row
            (ArithmeticExtensionGate.wires_ith_output D i0)
            (extAdd (scalar_mul c0 (extMul w (m0v i0) (m1v i0)))
              (scalar_mul c1 (av i0)))) := by
      unfold ArithmeticExtensionGenerator.run_once
      rw [get_extension_target_eq_of wit row _ _ (hm0 i0 (by simp)),
        get_extension_target_eq_of wit row _ _ (hm1 i0 (by simp)),
        get_extension_target_eq_of wit row _ _ (ha i0 (by simp))]
      rfl
    set w1 : Target → Option F :=
      commit (ArithmeticExtensionGenerator.set_extension_target D row
        (ArithmeticExtensionGate.wires_ith_output D i0)
        (extAdd (scalar_mul c0 (extMul w (m0v i0) (m1v i0)))
          (scalar_mul c1 (av i0)))) wit with hw1
    have hfst : (ArithmeticExtensionGenerator.set_extension_target D row
        (ArithmeticExtensionGate.wires_ith_output D i0)
        (extAdd (scalar_mul c0 (extMul w (m0v i0) (m1v i0)))
          (scalar_mul c1 (av i0)))).map Prod.fst
        = List.ofFn (fun j : Fin D => Target.wire row
            ((ArithmeticExtensionGate.wires_ith_output D i0).start + j.1)) := by
      unfold ArithmeticExtensionGenerator.set_extension_target
      rw [List.map_ofFn]
      rfl
    have hnotout : ∀ t : Target,
        (∀ j : Fin D, t ≠ Target.wire row
          ((ArithmeticExtensionGate.wires_ith_output D i0).start + j.1)) →
        w1 t = wit t := by
      intro t ht
      apply commit_not_mem
      rw [hfst]
      intro hmem
      obtain ⟨j, hj⟩ := Set.mem_range.mp ((List.mem_ofFn _ _).mp hmem)
      exact ht j hj.symm
    have hout0 : ∀ j : Fin D, w1 (Target.wire row
        ((ArithmeticExtensionGate.wires_ith_output D i0).start + j.1))
        = some (extAdd (scalar_mul c0 (extMul w (m0v i0) (m1v i0)))
            (scalar_mul c1 (av i0)) j) := by
      intro j
      apply commit_mem_nodup
      · unfold ArithmeticExtensionGenerator.set_extension_target
        exact (List.mem_ofFn _ _).mpr ⟨j, rfl⟩
      · rw [hfst, List.nodup_ofFn]
        intro j1 j2 hj
        simp only [Target.wire, Target.mk.injEq, true_and] at hj
        exact Fin.val_injective (by omega)
    have hm0' : ∀ i ∈ l', ∀ j : Fin D, w1 (Target.wire row
        ((ArithmeticExtensionGate.wires_ith_multiplicand_0 D i).start + j.1))
        = some (m0v i j) := by
      intro i hi j
      rw [hnotout _ ?_]
      · exact hm0 i (by simp [hi]) j
      · intro j'
        rw [m0_start_eq, output_start_eq]
        exact wire_targets_ne j j' (by omega) (by omega) (Or.inr (by omega))
    have hm1' : ∀ i ∈ l', ∀ j : Fin D, w1 (Target.wire row
        ((ArithmeticExtensionGate.wires_ith_multiplicand_1 D i).start + j.1))
        = some (m1v i j) := by
      intro i hi j
      rw [hnotout _ ?_]
      · exact hm1 i (by simp [hi]) j
      · intro j'
        rw [m1_start_eq, output_start_eq]
        exact wire_targets_ne j j' (by omega) (by omega) (Or.inr (by omega))
    have ha' : ∀ i ∈ l', ∀ j : Fin D, w1 (Target.wire row
        ((ArithmeticExtensionGate.wires_ith_addend D i).start + j.1))
        = some (av i j) := by
      intro i hi j
      rw [hnotout _ ?_]
      · exact ha i (by simp [hi]) j
      · intro j'
        rw [addend_start_eq, output_start_eq]
        exact wire_targets_ne j j' (by omega) (by omega) (Or.inr (by omega))
    obtain ⟨wfin, hrunrest, hpres, houts⟩ := ih w1 hm0' hm1' ha'
    refine ⟨wfin, ?_, ?_, ?_⟩
    · rw [List.map_cons]
      show (do
        let writes ← ArithmeticExtensionGenerator.run_once D w ⟨row, c0, c1, i0⟩ wit
        run_generators D w (l'.map (fun i => ⟨row, c0, c1, i⟩)) (commit writes wit))
        = some wfin
      rw [hrun]
      exact hrunrest
    · intro t ht
      rw [hpres t (fun i hi j => ht i (by simp [hi]) j),
        hnotout t (fun j => ht i0 (by simp) j)]
    · intro i hi j
      rcases List.mem_cons.mp hi with rfl | hi'
      · by_cases hdup : i ∈ l'
        · exact houts i hdup j
        · rw [hpres _ ?_]
          · exact hout0 j
          · intro i' hi' j'
            rw [output_start_eq, output_start_eq]
            refine wire_targets_ne j j' (by omega) (by omega) (Or.inl ?_)
            intro heq
            exact hdup (heq ▸ hi')
      · exact houts i hi' j

/-- C1: For every `D ≥ 1` (vacuously also `D = 0`), every gate with
`num_ops = k` and every assignment of the multiplicand/addend wires and the two
constants: `generators(row, local_constants)` yields `k` generators; running
them to completion sets each operation's output wires to exactly
`multiplicand_0 * multiplicand_1 * const_0 + addend * const_1` in the
extension field; and `eval_unfiltered_base_one` on the resulting
fully-assigned row yields all zeros. -/
theorem generators_fill_outputs_and_constraints_vanish {F : Type*} [CommRing F]
    (D k row : ℕ) (w c0 c1 : F) (local_constants : List F)
    (winit : Target → Option F) (m0v m1v av : ℕ → Fin D → F)
    (h0 : local_constants.get? 0 = some c0)
    (h1 : local_constants.get? 1 = some c1)
    (hm0 : ∀ i < k, ∀ j : Fin D, winit (Target.wire row
        ((ArithmeticExtensionGate.wires_ith_multiplicand_0 D i).start + j.1))
        = some (m0v i j))
    (hm1 : ∀ i < k, ∀ j : Fin D, winit (Target.wire row
        ((ArithmeticExtensionGate.wires_ith_multiplicand_1 D i).start + j.1))
        = some (m1v i j))
    (ha : ∀ i < k, ∀ j : Fin D, winit (Target.wire row
        ((ArithmeticExtensionGate.wires_ith_addend D i).start + j.1))
        = some (av i j)) :
    ∃ (gens : List (ArithmeticExtensionGenerator F)) (wfin : Target → Option F)
      (cs : List F),
      ArithmeticExtensionGate.generators D ⟨k⟩ row local_constants = some gens ∧
      gens.length = k ∧
      run_generators D w gens winit = some wfin ∧
      (∀ i < k, ∀ j : Fin D,
        wfin (Target.wire row ((ArithmeticExtensionGate.wires_ith_output D i).start + j.1))
          = some (extAdd (scalar_mul c0 (extMul w (m0v i) (m1v i)))
              (scalar_mul c1 (av i)) j)) ∧
      ArithmeticExtensionGate.eval_unfiltered_base_one D w ⟨k⟩ local_constants
        (fun col => (wfin (Target.wire row col)).getD 0) = some cs ∧
      ∀ x ∈ cs, x = 0 := by
  have hgens : ArithmeticExtensionGate.generators (F := F) D ⟨k⟩ row local_constants
      = some ((List.range k).map (fun i => ⟨row, c0, c1, i⟩)) := by
    unfold ArithmeticExtensionGate.generators
    exact mapM_eq_some_map _
      (fun i => do
        let const_0 ← local_constants.get? 0
        let const_1 ← local_constants.get? 1
        pure (⟨row, const_0, const_1, i⟩ : ArithmeticExtensionGenerator F))
      (fun i => ⟨row, c0, c1, i⟩) (fun i _ => by rw [h0, h1]; rfl)
  obtain ⟨wfin, hrun, hpres, houts⟩ := run_generators_spec D row w c0 c1 m0v m1v av
    (List.range k) winit
    (fun i hi => hm0 i (List.mem_range.mp hi))
    (fun i hi => hm1 i (List.mem_range.mp hi))
    (fun i hi => ha i (List.mem_range.mp hi))
  have houts' : ∀ i < k, ∀ j : Fin D,
      wfin (Target.wire row ((ArithmeticExtensionGate.wires_ith_output D i).start + j.1))
        = some (extAdd (scalar_mul c0 (extMul w (m0v i) (m1v i)))
            (scalar_mul c1 (av i)) j) :=
    fun i hik => houts i (List.mem_range.mpr hik)
  -- the final row as seen by the base-field evaluator
  set rowfn : ℕ → F := fun col => (wfin (Target.wire row col)).getD 0 with hrowfn
  -- the evaluator's packed reads
  have hpack_out : ∀ i < k, get_local_ext D rowfn
      (ArithmeticExtensionGate.wires_ith_output D i)
      = extAdd (scalar_mul c0 (extMul w (m0v i) (m1v i))) (scalar_mul c1 (av i)) := by
    intro i hik
    funext j
    show (wfin (Target.wire row _)).getD 0 = _
    rw [houts' i hik j]
    rfl
  have hinput_pres : ∀ (i : ℕ) (kslot : ℕ), kslot < 3 → ∀ j : Fin D,
      wfin (Target.wire row (D * (4*i + kslot) + j.1))
        = winit (Target.wire row (D * (4*i + kslot) + j.1)) := by
    intro i kslot hks j
    apply hpres
    intro i' hi' j'
    rw [output_start_eq]
    exact wire_targets_ne j j' (by omega) (by omega) (Or.inr (by omega))
  have hpack_m0 : ∀ i < k, get_local_ext D rowfn
      (ArithmeticExtensionGate.wires_ith_multiplicand_0 D i) = m0v i := by
    intro i hik
    funext j
    show (wfin (Target.wire row _)).getD 0 = _
    rw [m0_start_eq, hinput_pres i 0 (by omega) j, ← m0_start_eq, hm0 i hik j]
    rfl
  have hpack_m1 : ∀ i < k, get_local_ext D rowfn
      (ArithmeticExtensionGate.wires_ith_multiplicand_1 D i) = m1v i := by
    intro i hik
    funext j
    show (wfin (Target.wire row _)).getD 0 = _
    rw [m1_start_eq, hinput_pres i 1 (by omega) j, ← m1_start_eq, hm1 i hik j]
    rfl
  have hpack_ad : ∀ i < k, get_local_ext D rowfn
      (ArithmeticExtensionGate.wires_ith_addend D i) = av i := by
    intro i hik
    funext j
    show (wfin (Target.wire row _)).getD 0 = _
    rw [addend_start_eq, hinput_pres i 2 (by omega) j, ← addend_start_eq, ha i hik j]
    rfl
  have heval : ArithmeticExtensionGate.eval_unfiltered_base_one D w ⟨k⟩ local_constants rowfn
      = some ((List.range k).flatMap (fun i =>
          List.ofFn (fun j : Fin D => extSub
            (get_local_ext D rowfn (ArithmeticExtensionGate.wires_ith_output D i))
            (extAdd
              (scalar_mul c0 (extMul w
                (get_local_ext D rowfn
                  (ArithmeticExtensionGate.wires_ith_multiplicand_0 D i))
                (get_local_ext D rowfn
                  (ArithmeticExtensionGate.wires_ith_multiplicand_1 D i))))
              (scalar_mul c1 (get_local_ext D rowfn
                (ArithmeticExtensionGate.wires_ith_addend D i)))) j))) := by
    unfold ArithmeticExtensionGate.eval_unfiltered_base_one
    rw [h0, h1]
    rfl
  refine ⟨_, wfin, _, hgens, by simp, hrun, houts', heval, ?_⟩
  · intro x hx
    simp only [List.mem_flatMap, List.mem_range] at hx
    obtain ⟨i, hik, hxo⟩ := hx
    obtain ⟨j, rfl⟩ := Set.mem_range.mp ((List.mem_ofFn _ _).mp hxo)
    show get_local_ext D rowfn (ArithmeticExtensionGate.wires_ith_output D i) j
        - extAdd (scalar_mul c0 (extMul w
            (get_local_ext D rowfn (ArithmeticExtensionGate.wires_ith_multiplicand_0 D i))
            (get_local_ext D rowfn (ArithmeticExtensionGate.wires_ith_multiplicand_1 D i))))
          (scalar_mul c1 (get_local_ext D rowfn
            (ArithmeticExtensionGate.wires_ith_addend D i))) j = 0
    rw [hpack_out i hik, hpack_m0 i hik, hpack_m1 i hik, hpack_ad i hik]
    exact sub_self _

/-- C1 witness: the spec's worked example over Goldilocks — `D = 2`,
`num_ops = 1`, `const_0 = const_1 = 1`, multiplicands `(3,0)`, `(4,0)`, addend
`(5,0)` — satisfies the hypotheses; the theorem applies, and running the
single generator concretely sets the output wires to `(17, 0)` while
base-field evaluation of the completed row yields the zero vector. -/
theorem generators_fill_outputs_concrete :
    (([(1 : GF), 1]).get? 0 = some 1 ∧
      ([(1 : GF), 1]).get? 1 = some 1 ∧
      (∀ i < 1, ∀ j : Fin 2,
        (fun t : Target => if t = Target.wire 0 0 then some (3 : GF)
          else if t = Target.wire 0 2 then some 4
          else if t = Target.wire 0 4 then some 5
          else if t.col < 6 then some 0 else none)
          (Target.wire 0 ((ArithmeticExtensionGate.wires_ith_multiplicand_0 2 i).start + j.1))
          = some (![3, 0] j)) ∧
      (∀ i < 1, ∀ j : Fin 2,
        (fun t : Target => if t = Target.wire 0 0 then some (3 : GF)
          else if t = Target.wire 0 2 then some 4
          else if t = Target.wire 0 4 then some 5
          else if t.col < 6 then some 0 else none)
          (Target.wire 0 ((ArithmeticExtensionGate.wires_ith_multiplicand_1 2 i).start + j.1))
          = some (![4, 0] j)) ∧
      (∀ i < 1, ∀ j : Fin 2,
        (fun t : Target => if t = Target.wire 0 0 then some (3 : GF)
          else if t = Target.wire 0 2 then some 4
          else if t = Target.wire 0 4 then some 5
          else if t.col < 6 then some 0 else none)
          (Target.wire 0 ((ArithmeticExtensionGate.wires_ith_addend 2 i).start + j.1))
          = some (![5, 0] j))) ∧
    (∃ (gens : List (ArithmeticExtensionGenerator GF)) (wfin : Target → Option GF)
        (cs : List GF),
      ArithmeticExtensionGate.generators 2 ⟨1⟩ 0 [(1 : GF), 1] = some gens ∧
      gens.length = 1 ∧
      run_generators 2 7 gens
        (fun t : Target => if t = Target.wire 0 0 then some (3 : GF)
          else if t = Target.wire 0 2 then some 4
          else if t = Target.wire 0 4 then some 5
          else if t.col < 6 then some 0 else none) = some wfin ∧
      (∀ i < 1, ∀ j : Fin 2,
        wfin (Target.wire 0 ((ArithmeticExtensionGate.wires_ith_output 2 i).start + j.1))
          = some (extAdd (scalar_mul 1 (extMul 7 ((fun _ : ℕ => ![3, 0]) i)
              (((fun _ : ℕ => ![4, 0])) i)))
              (scalar_mul 1 ((fun _ : ℕ => ![5, 0]) i)) j)) ∧
      ArithmeticExtensionGate.eval_unfiltered_base_one 2 7 ⟨1⟩ [(1 : GF), 1]
        (fun col => (wfin (Target.wire 0 col)).getD 0) = some cs ∧
      ∀ x ∈ cs, x = 0) ∧
    (run_generators 2 7 [(⟨0, (1 : GF), 1, 0⟩ : ArithmeticExtensionGenerator GF)]
        (fun t : Target => if t = Target.wire 0 0 then some (3 : GF)
          else if t = Target.wire 0 2 then some 4
          else if t = Target.wire 0 4 then some 5
          else if t.col < 6 then some 0 else none)).map
        (fun wf => (wf (Target.wire 0 6), wf (Target.wire 0 7)))
      = some (some 17, some 0) ∧
    ArithmeticExtensionGate.eval_unfiltered_base_one 2 7 ⟨1⟩ [(1 : GF), 1]
      (fun col => if col = 0 then 3 else if col = 2 then 4 else if col = 4 then 5
        else if col = 6 then 17 else 0) = some [0, 0] :=
  ⟨⟨by decide, by decide, by decide, by decide, by decide⟩,
    generators_fill_outputs_and_constraints_vanish 2 1 0 7 1 1 [(1 : GF), 1]
      (fun t : Target => if t = Target.wire 0 0 then some (3 : GF)
        else if t = Target.wire 0 2 then some 4
        else if t = Target.wire 0 4 then some 5
        else if t.col < 6 then some 0 else none)
      (fun _ : ℕ => ![3, 0]) (fun _ : ℕ => ![4, 0]) (fun _ : ℕ => ![5, 0])
      (by decide) (by decide) (by decide) (by decide) (by decide),
    by decide, by decide⟩

/-! ## C9: verifier-code export -/

/-- A prefix of `a ++ b` lies in `a` or covers `a` and continues into `b`. -/
theorem prefix_append_split {x a b : List Char} (h : x <+: a ++ b) :
    x <+: a ∨ ∃ y, x = a ++ y ∧ y <+: b := by
  induction a generalizing x with
  | nil =>
    right
    exact ⟨x, rfl, by simpa using h⟩
  | cons c a' ih =>
    cases x with
    | nil => left; exact List.nil_prefix
    | cons d x' =>
      rw [List.cons_append, List.cons_prefix_cons] at h
      obtain ⟨rfl, hx'⟩ := h
      rcases ih hx' with h1 | ⟨y, rfl, hy⟩
      · left
        exact List.cons_prefix_cons.mpr ⟨rfl, h1⟩
      · right
        exact ⟨y, rfl, hy⟩

/-- An occurrence inside `a ++ b` lies in `a`, lies in `b`, or straddles the
boundary with a nonempty suffix of `a` followed by a nonempty prefix of `b`. -/
theorem infix_append_split {x a b : List Char} (h : x <:+: a ++ b) :
    x <:+: a ∨ x <:+: b ∨ ∃ x1 x2, x = x1 ++ x2 ∧ x1 ≠ [] ∧ x2 ≠ [] ∧
      x1 <:+ a ∧ x2 <+: b := by
  induction a generalizing x with
  | nil =>
    right
    left
    simpa using h
  | cons c a' ih =>
    rw [List.cons_append, List.infix_cons_iff] at h
    rcases h with hpre | hinf
    · cases x with
      | nil => left; exact List.nil_infix
      | cons d x' =>
        rw [List.cons_prefix_cons] at hpre
        obtain ⟨rfl, hx'⟩ := hpre
        rcases prefix_append_split hx' with h1 | ⟨y, rfl, hy⟩
        · left
          exact (List.cons_prefix_cons.mpr ⟨rfl, h1⟩).isInfix
        · cases y with
          | nil =>
            left
            simp only [List.append_nil]
            exact List.infix_rfl
          | cons e y' =>
            right
            right
            exact ⟨d :: a', e :: y', rfl, by simp, by simp, by simp, hy⟩
    · rcases ih hinf with h1 | h1 | ⟨x1, x2, rfl, hne1, hne2, hsuf, hpre2⟩
      · left
        exact List.infix_cons h1
      · right
        left
        exact h1
      · right
        right
        exact ⟨x1, x2, rfl, hne1, hne2, hsuf.trans (List.suffix_cons c a'), hpre2⟩

/-- A prefix of the replacement output that avoids the replacement text's
characters transfers to a prefix of the input. -/
theorem prefix_transfer_replaceAllFuel (pat rep : List Char) (hrep : rep ≠ []) :
    ∀ (fuel : ℕ) (s q : List Char), s.length ≤ fuel →
    (∀ c ∈ q, c ∉ rep) → q <+: replaceAllFuel pat rep fuel s →
    q = [] ∨ q <+: s := by
  intro fuel
  induction fuel with
  | zero =>
    intro s q hf hq hpre
    cases s with
    | nil =>
      left
      simpa [replaceAllFuel] using hpre
    | cons c s' => simp at hf
  | succ fuel ih =>
    intro s q hf hq hpre
    cases s with
    | nil =>
      left
      simpa [replaceAllFuel] using hpre
    | cons c s' =>
      rw [replaceAllFuel] at hpre
      split at hpre
      · cases q with
        | nil => left; rfl
        | cons d q' =>
          exfalso
          cases rep with
          | nil => exact hrep rfl
          | cons r rep' =>
            rw [List.cons_append, List.cons_prefix_cons] at hpre
            exact hq d (by simp) (hpre.1 ▸ List.mem_cons_self r rep')
      · cases q with
        | nil => left; rfl
        | cons d q' =>
          rw [List.cons_prefix_cons] at hpre
          obtain ⟨rfl, hq'⟩ := hpre
          rcases ih s' q' (by simpa using hf) (fun x hx => hq x (by simp [hx])) hq'
            with rfl | hq''
          · right
            exact List.cons_prefix_cons.mpr ⟨rfl, List.nil_prefix⟩
          · right
            exact List.cons_prefix_cons.mpr ⟨rfl, hq''⟩

/-- After replacing `pat` by replacement text that shares no character with
`pat`, no occurrence of `pat` remains. -/
theorem pat_not_infix_replaceAllFuel (pat rep : List Char) (hpat : pat ≠ [])
    (hrep : rep ≠ []) (hdisj : ∀ c ∈ rep, c ∉ pat) :
    ∀ (fuel : ℕ) (s : List Char), s.length ≤ fuel →
    ¬ pat <:+: replaceAllFuel pat rep fuel s := by
  intro fuel
  induction fuel with
  | zero =>
    intro s hf hinf
    cases s with
    | nil => exact hpat (List.infix_nil.mp (by simpa [replaceAllFuel] using hinf))
    | cons c s' => simp at hf
  | succ fuel ih =>
    intro s hf hinf
    cases s with
    | nil => exact hpat (List.infix_nil.mp (by simpa [replaceAllFuel] using hinf))
    | cons c s' =>
      rw [replaceAllFuel] at hinf
      split at hinf
      · rename_i hmatch
        rcases infix_append_split hinf with h1 | h1 | ⟨x1, x2, hx, hne1, -, hsuf, -⟩
        · cases pat with
          | nil => exact hpat rfl
          | cons p pat' =>
            exact hdisj p (h1.subset (List.mem_cons_self p pat'))
              (List.mem_cons_self p pat')
        · exact ih _ (le_trans (List.length_drop _ _ ▸ Nat.sub_le _ _)
            (by simpa using hf)) h1
        · cases x1 with
          | nil => exact hne1 rfl
          | cons e x1' =>
            exact hdisj e (hsuf.subset (List.mem_cons_self e x1'))
              (by rw [hx]; simp)
      · rename_i hmatch
        rw [List.infix_cons_iff] at hinf
        rcases hinf with hpre | hinf'
        · cases pat with
          | nil => exact hpat rfl
          | cons p pat' =>
            rw [List.cons_prefix_cons] at hpre
            obtain ⟨rfl, hpre'⟩ := hpre
            have hq : ∀ x ∈ pat', x ∉ rep := by
              intro x hx hxr
              exact hdisj x hxr (by simp [hx])
            rcases prefix_transfer_replaceAllFuel (p :: pat') rep hrep fuel s'
                pat' (by simpa using hf) hq hpre' with rfl | hps
            · exact hmatch (by
                rw [List.isPrefixOf_iff_prefix]
                exact List.cons_prefix_cons.mpr ⟨rfl, List.nil_prefix⟩)
            · exact hmatch (by
                rw [List.isPrefixOf_iff_prefix]
                exact List.cons_prefix_cons.mpr ⟨rfl, hps⟩)
        · exact ih s' (by simpa using hf) hinf'

/-- Replacing `pat` by text that shares no character with `x` cannot create a
new occurrence of `x`. -/
theorem not_infix_replaceAllFuel_of (pat rep x : List Char) (hx : x ≠ [])
    (hrep : rep ≠ []) (hdisj : ∀ c ∈ x, c ∉ rep) :
    ∀ (fuel : ℕ) (s : List Char), s.length ≤ fuel → ¬ x <:+: s →
    ¬ x <:+: replaceAllFuel pat rep fuel s := by
  intro fuel
  induction fuel with
  | zero =>
    intro s hf hs hinf
    cases s with
    | nil => exact hx (List.infix_nil.mp (by simpa [replaceAllFuel] using hinf))
    | cons c s' => simp at hf
  | succ fuel ih =>
    intro s hf hs hinf
    cases s with
    | nil => exact hx (List.infix_nil.mp (by simpa [replaceAllFuel] using hinf))
    | cons c s' =>
      rw [replaceAllFuel] at hinf
      split at hinf
      · rcases infix_append_split hinf with h1 | h1 | ⟨x1, x2, hxeq, hne1, -, hsuf, -⟩
        · cases x with
          | nil => exact hx rfl
          | cons p x' =>
            exact hdisj p (List.mem_cons_self p x') (h1.subset (List.mem_cons_self p x'))
        · refine ih _ (le_trans (List.length_drop _ _ ▸ Nat.sub_le _ _)
            (by simpa using hf)) ?_ h1
          intro hcon
          exact hs (List.infix_cons (hcon.trans (List.drop_suffix _ _).isInfix))
        · cases x1 with
          | nil => exact hne1 rfl
          | cons e x1' =>
            exact hdisj e (by rw [hxeq]; simp) (hsuf.subset (List.mem_cons_self e x1'))
      · rw [List.infix_cons_iff] at hinf
        rcases hinf with hpre | hinf'
        · cases x with
          | nil => exact hx rfl
          | cons p x' =>
            rw [List.cons_prefix_cons] at hpre
            obtain ⟨rfl, hpre'⟩ := hpre
            have hq : ∀ y ∈ x', y ∉ rep := fun y hy => hdisj y (by simp [hy])
            rcases prefix_transfer_replaceAllFuel pat rep hrep fuel s'
                x' (by simpa using hf) hq hpre' with rfl | hps
            · exact hs (List.cons_prefix_cons.mpr ⟨rfl, List.nil_prefix⟩).isInfix
            · exact hs (List.cons_prefix_cons.mpr ⟨rfl, hps⟩).isInfix
        · refine ih s' (by simpa using hf) ?_ hinf'
          intro hcon
          exact hs (List.infix_cons hcon)

set_option maxRecDepth 100000 in
/-- The solidity template splits at its two `$NUM_OPS` occurrences. -/
theorem solidityTemplate_split :
    solidityTemplate.toList
      = solSeg0.toList ++ ("$NUM_OPS".toList) ++ solSeg1.toList
        ++ ("$NUM_OPS".toList) ++ solSeg2.toList := by
  rfl

set_option maxRecDepth 100000 in
/-- The tail segment of the solidity template contains a literal `$D`. -/
theorem solSeg2_split :
    solSeg2.toList = solSeg2a.toList ++ ("$D".toList) ++ solSeg2b.toList := by
  rfl

set_option maxRecDepth 100000 in
/-- Replacing `$NUM_OPS` in the solidity template splices the replacement text
into its two occurrence sites and touches nothing else, whatever the
replacement is. -/
theorem replaceAll_solidityTemplate (rep : List Char) :
    replaceAll ("$NUM_OPS".toList) rep solidityTemplate.toList
      = solSeg0.toList ++ (rep ++ (solSeg1.toList ++ (rep ++ solSeg2.toList))) := by
  rfl

/-- No character of `$NUM_OPS` is a decimal digit. -/
theorem numops_chars_not_digit : ∀ c ∈ ("$NUM_OPS".toList), ¬ c.isDigit := by
  decide

/-- No character of `$D` is a decimal digit. -/
theorem dollarD_chars_not_digit : ∀ c ∈ ("$D".toList), ¬ c.isDigit := by
  decide

set_option maxRecDepth 100000 in
/-- C9 counterexample: the claim says every occurrence of `$D` is replaced in
both exported texts.  For the gate with `num_ops = 2` at `D = 2`, the circom
export indeed contains no `$D`, but `export_solidity_verification_code`
performs no `$D` substitution at all, so its output still contains the literal
placeholder `$D`. -/
theorem solidity_export_leaves_dollar_d :
    ("$D".toList <:+:
      (ArithmeticExtensionGate.export_solidity_verification_code ⟨2⟩).toList) ∧
    ¬ ("$D".toList <:+:
      (ArithmeticExtensionGate.export_circom_verification_code 2 ⟨2⟩).toList) := by
  constructor
  · show ("$D".toList <:+:
      replaceAll ("$NUM_OPS".toList) ((toString 2).toList) solidityTemplate.toList)
    rw [replaceAll_solidityTemplate]
    refine ⟨solSeg0.toList ++ ((toString 2).toList ++ (solSeg1.toList
        ++ ((toString 2).toList ++ solSeg2a.toList))), solSeg2b.toList, ?_⟩
    conv_rhs => rw [solSeg2_split]
    simp only [List.append_assoc]
  · show ¬ ("$D".toList <:+:
      replaceAll ("$D".toList) ((toString 2).toList)
        (replaceAll ("$NUM_OPS".toList) ((toString 2).toList) circomTemplate.toList))
    unfold replaceAll
    exact pat_not_infix_replaceAllFuel ("$D".toList) ((toString 2).toList)
      (by decide) (by decide) (by decide) _ _ le_rfl

set_option maxRecDepth 100000 in
/-- C9 amended: both exports substitute the decimal `num_ops` for every
occurrence of `$NUM_OPS` (none survives); the circom export additionally
substitutes the decimal `D` for every `$D`; the solidity export performs no
`$D` substitution, so literal `$D` occurrences remain in its output.  The
hypotheses record that a decimal rendering is a nonempty digit string. -/
theorem export_substitution_behavior (n DD : ℕ)
    (hn : ∀ c ∈ (toString n).toList, c.isDigit)
    (hnne : (toString n).toList ≠ [])
    (hD : ∀ c ∈ (toString DD).toList, c.isDigit)
    (hDne : (toString DD).toList ≠ []) :
    ¬ ("$NUM_OPS".toList <:+:
        (ArithmeticExtensionGate.export_circom_verification_code DD ⟨n⟩).toList) ∧
    ¬ ("$D".toList <:+:
        (ArithmeticExtensionGate.export_circom_verification_code DD ⟨n⟩).toList) ∧
    ¬ ("$NUM_OPS".toList <:+:
        (ArithmeticExtensionGate.export_solidity_verification_code ⟨n⟩).toList) ∧
    ("$D".toList <:+:
        (ArithmeticExtensionGate.export_solidity_verification_code ⟨n⟩).toList) := by
  have hrepN : ∀ c ∈ (toString n).toList, c ∉ ("$NUM_OPS".toList) :=
    fun c hc hmem => numops_chars_not_digit c hmem (hn c hc)
  have hrepD_D : ∀ c ∈ (toString DD).toList, c ∉ ("$D".toList) :=
    fun c hc hmem => dollarD_chars_not_digit c hmem (hD c hc)
  have hxd : ∀ c ∈ ("$NUM_OPS".toList), c ∉ (toString DD).toList :=
    fun c hc hmem => numops_chars_not_digit c hc (hD c hmem)
  refine ⟨?_, ?_, ?_, ?_⟩
  · show ¬ ("$NUM_OPS".toList <:+:
      replaceAll ("$D".toList) ((toString DD).toList)
        (replaceAll ("$NUM_OPS".toList) ((toString n).toList) circomTemplate.toList))
    unfold replaceAll
    exact not_infix_replaceAllFuel_of ("$D".toList) ((toString DD).toList)
      ("$NUM_OPS".toList) (by decide) hDne hxd _ _ le_rfl
      (pat_not_infix_replaceAllFuel ("$NUM_OPS".toList) ((toString n).toList)
        (by decide) hnne hrepN _ _ le_rfl)
  · show ¬ ("$D".toList <:+:
      replaceAll ("$D".toList) ((toString DD).toList)
        (replaceAll ("$NUM_OPS".toList) ((toString n).toList) circomTemplate.toList))
    unfold replaceAll
    exact pat_not_infix_replaceAllFuel ("$D".toList) ((toString DD).toList)
      (by decide) hDne hrepD_D _ _ le_rfl
  · show ¬ ("$NUM_OPS".toList <:+:
      replaceAll ("$NUM_OPS".toList) ((toString n).toList) solidityTemplate.toList)
    unfold replaceAll
    exact pat_not_infix_replaceAllFuel ("$NUM_OPS".toList) ((toString n).toList)
      (by decide) hnne hrepN _ _ le_rfl
  · show ("$D".toList <:+:
      replaceAll ("$NUM_OPS".toList) ((toString n).toList) solidityTemplate.toList)
    rw [replaceAll_solidityTemplate]
    refine ⟨solSeg0.toList ++ ((toString n).toList ++ (solSeg1.toList
        ++ ((toString n).toList ++ solSeg2a.toList))), solSeg2b.toList, ?_⟩
    conv_rhs => rw [solSeg2_split]
    simp only [List.append_assoc]

/-- C9 witness: the amended substitution theorem applied at `num_ops = 12`,
`D = 2`, whose decimal renderings are nonempty digit strings; the solidity
output of that gate still contains `$D`. -/
theorem export_substitution_behavior_concrete :
    ((∀ c ∈ (toString 12).toList, c.isDigit) ∧ (toString 12).toList ≠ [] ∧
      (∀ c ∈ (toString 2).toList, c.isDigit) ∧ (toString 2).toList ≠ []) ∧
    ("$D".toList <:+:
      (ArithmeticExtensionGate.export_solidity_verification_code ⟨12⟩).toList) :=
  ⟨⟨by decide, by decide, by decide, by decide⟩,
    (export_substitution_behavior 12 2 (by decide) (by decide) (by decide)
      (by decide)).2.2.2⟩

end Plonky2
